import Mathlib

/-!
# Verification of the instant-smtp lexical grammar core (src/parse/mod.rs)

The source is a set of nom streaming parsers over byte buffers.  We embed the
buffers as `List Nat` (each element a byte value) and the nom streaming
combinators by their semantics in nom 7 (`bytes::streaming`,
`character::streaming`):

* `Ok((remaining, value))` becomes `PResult.Parsed remaining value`;
* `Err(Err::Incomplete(_))` becomes `PResult.Incomplete` (the `Needed` payload
  is not observed by any code under verification);
* `Err(Err::Error(_))` becomes `PResult.Error` (the error payload is likewise
  never inspected; no parser here emits `Err::Failure`).

Rust `&str` values are embedded as the byte list of their UTF-8 encoding;
`std::str::from_utf8` is embedded as a byte-level UTF-8 validity check that
returns the same bytes on success.

`many0` and the trailing loop of `separated_list1` are nom loops that advance
through the buffer; we embed them with an explicit fuel argument that starts
at `length + 1`.  Since nom's own infinite-loop protection aborts an iteration
that consumed nothing (`ErrorKind::Many0` / `ErrorKind::SeparatedList`), every
surviving iteration strictly shrinks the remaining buffer, so the fuel is
never exhausted on the embedded runs (the `fuel = 0` branch is unreachable;
this is proved where needed via the length guards).
-/

set_option maxHeartbeats 1000000

namespace InstantSmtp

/-- Result of a nom streaming parser: a parsed value with the unconsumed
remainder, a request for more input, or a recoverable syntax error. -/
inductive PResult (α : Type) where
  | Parsed (remaining : List Nat) (value : α)
  | Incomplete
  | Error
deriving DecidableEq

/-- A parser in the sense of this module: byte buffer in, `PResult` out. -/
def Parser (α : Type) : Type := List Nat → PResult α

/-- Index of the first byte satisfying `f`, the position search used by nom's
`split_at_position` family (`List.findIdx?` spelled out so that all lemmas
about it are proved in this file). -/
def splitPos (f : Nat → Bool) : List Nat → Option Nat
  | [] => none
  | b :: rest => if f b then some 0 else (splitPos f rest).map (fun j => j + 1)

/-- nom `bytes::streaming::take_while`: longest prefix of bytes satisfying
`p`; `Incomplete` when the whole buffer satisfies `p` (the run may continue
past the end of the buffer). -/
def takeWhileC (p : Nat → Bool) : Parser (List Nat) := fun i =>
  match splitPos (fun b => ! p b) i with
  | some idx => PResult.Parsed (i.drop idx) (i.take idx)
  | none => PResult.Incomplete

/-- nom `bytes::streaming::take_while1`: as `take_while` but an empty match is
a syntax error (`split_at_position1`). -/
def takeWhile1C (p : Nat → Bool) : Parser (List Nat) := fun i =>
  match splitPos (fun b => ! p b) i with
  | some 0 => PResult.Error
  | some idx => PResult.Parsed (i.drop idx) (i.take idx)
  | none => PResult.Incomplete

/-- nom `bytes::streaming::take_while_m_n`: between `m` and `n` bytes
satisfying `p`, preferring more; `Incomplete` when the buffer ends before `n`
matching bytes with no non-matching byte seen. -/
def takeWhileMN (m n : Nat) (p : Nat → Bool) : Parser (List Nat) := fun i =>
  match splitPos (fun b => ! p b) i with
  | some idx =>
    if m ≤ idx then
      PResult.Parsed (i.drop (min idx n)) (i.take (min idx n))
    else PResult.Error
  | none =>
    if n ≤ i.length then PResult.Parsed (i.drop n) (i.take n)
    else PResult.Incomplete

/-- nom `bytes::streaming::tag`: match the literal byte sequence `t`;
`Incomplete` when the buffer is a proper prefix of `t`. -/
def tagC (t : List Nat) : Parser (List Nat) := fun i =>
  if t.length ≤ i.length then
    if i.take t.length = t then PResult.Parsed (i.drop t.length) t
    else PResult.Error
  else
    if t.take i.length = i then PResult.Incomplete else PResult.Error

/-- nom `character::streaming::digit1` is `take_while1` with the decimal digit
predicate (only the unobserved `ErrorKind` differs). -/
def is_digit (b : Nat) : Bool := 48 ≤ b && b ≤ 57

/-- nom `character::is_alphabetic`: ASCII letter. -/
def is_alphabetic (b : Nat) : Bool := (65 ≤ b && b ≤ 90) || (97 ≤ b && b ≤ 122)

/-- nom `combinator::map`. -/
def mapC {α β : Type} (p : Parser α) (f : α → β) : Parser β := fun i =>
  match p i with
  | PResult.Parsed r v => PResult.Parsed r (f v)
  | PResult.Incomplete => PResult.Incomplete
  | PResult.Error => PResult.Error

/-- nom `combinator::map_res`: a `none` from the conversion becomes a
recoverable error. -/
def mapResC {α β : Type} (p : Parser α) (f : α → Option β) : Parser β := fun i =>
  match p i with
  | PResult.Parsed r v =>
    match f v with
    | some w => PResult.Parsed r w
    | none => PResult.Error
  | PResult.Incomplete => PResult.Incomplete
  | PResult.Error => PResult.Error

/-- nom `branch::alt` for two alternatives: the second runs only when the
first fails with a recoverable error; `Incomplete` short-circuits. -/
def altC {α : Type} (a b : Parser α) : Parser α := fun i =>
  match a i with
  | PResult.Error => b i
  | r => r

/-- nom `combinator::opt`: a recoverable error becomes `none` with nothing
consumed; `Incomplete` propagates. -/
def optC {α : Type} (p : Parser α) : Parser (Option α) := fun i =>
  match p i with
  | PResult.Parsed r v => PResult.Parsed r (some v)
  | PResult.Error => PResult.Parsed i none
  | PResult.Incomplete => PResult.Incomplete

/-- nom `sequence::tuple` for a pair: run both in order. -/
def tupleC {α β : Type} (a : Parser α) (b : Parser β) : Parser (α × β) := fun i =>
  match a i with
  | PResult.Parsed r1 v1 =>
    match b r1 with
    | PResult.Parsed r2 v2 => PResult.Parsed r2 (v1, v2)
    | PResult.Incomplete => PResult.Incomplete
    | PResult.Error => PResult.Error
  | PResult.Incomplete => PResult.Incomplete
  | PResult.Error => PResult.Error

/-- nom `combinator::recognize`: discard the value, return the consumed input
slice, computed (as nom does via `Offset`) from the lengths of input and
remainder. -/
def recognizeC {α : Type} (p : Parser α) : Parser (List Nat) := fun i =>
  match p i with
  | PResult.Parsed r _ => PResult.Parsed r (i.take (i.length - r.length))
  | PResult.Incomplete => PResult.Incomplete
  | PResult.Error => PResult.Error

/-- nom `sequence::delimited`: `first`, `second`, `third` in order, keeping
only `second`'s value. -/
def delimitedC {α β γ : Type} (a : Parser α) (b : Parser β) (c : Parser γ) :
    Parser β := fun i =>
  match a i with
  | PResult.Parsed r1 _ =>
    match b r1 with
    | PResult.Parsed r2 v =>
      match c r2 with
      | PResult.Parsed r3 _ => PResult.Parsed r3 v
      | PResult.Incomplete => PResult.Incomplete
      | PResult.Error => PResult.Error
    | PResult.Incomplete => PResult.Incomplete
    | PResult.Error => PResult.Error
  | PResult.Incomplete => PResult.Incomplete
  | PResult.Error => PResult.Error

/-- Loop body of nom `multi::many0`, with fuel.  nom errors out of an
iteration whose parser consumed nothing (`ErrorKind::Many0`); for a parser
whose remainder is a suffix of its input this is exactly the
`¬ (length r < length i)` branch below. -/
def many0Go {α : Type} (p : Parser α) : Nat → List Nat → PResult (List α)
  | 0, _ => PResult.Error
  | fuel + 1, i =>
    match p i with
    | PResult.Error => PResult.Parsed i []
    | PResult.Incomplete => PResult.Incomplete
    | PResult.Parsed r v =>
      if r.length < i.length then
        match many0Go p fuel r with
        | PResult.Parsed r2 vs => PResult.Parsed r2 (v :: vs)
        | PResult.Incomplete => PResult.Incomplete
        | PResult.Error => PResult.Error
      else PResult.Error

/-- nom `multi::many0`. -/
def many0C {α : Type} (p : Parser α) : Parser (List α) := fun i =>
  many0Go p (i.length + 1) i

/-- Trailing loop of nom `multi::separated_list1`, with fuel: try the
separator (a recoverable error ends the list), then the element parser (a
recoverable error ends the list, backtracking over the separator).  nom
errors out when the separator consumed nothing (`ErrorKind::SeparatedList`);
for a separator whose remainder is a suffix of its input this is exactly the
`¬ (length i1 < length i)` branch below, and the `length i2 ≤ length i1`
guard never fails for an element parser with that same property. -/
def sepLoopGo {α β : Type} (sep : Parser α) (p : Parser β) :
    Nat → List Nat → PResult (List β)
  | 0, _ => PResult.Error
  | fuel + 1, i =>
    match sep i with
    | PResult.Error => PResult.Parsed i []
    | PResult.Incomplete => PResult.Incomplete
    | PResult.Parsed i1 _ =>
      if i1.length < i.length then
        match p i1 with
        | PResult.Error => PResult.Parsed i []
        | PResult.Incomplete => PResult.Incomplete
        | PResult.Parsed i2 v =>
          if i2.length ≤ i1.length then
            match sepLoopGo sep p fuel i2 with
            | PResult.Parsed r vs => PResult.Parsed r (v :: vs)
            | PResult.Incomplete => PResult.Incomplete
            | PResult.Error => PResult.Error
          else PResult.Error
      else PResult.Error

/-- nom `multi::separated_list1`: one element, then separator-element pairs
until a recoverable error. -/
def separated_list1C {α β : Type} (sep : Parser α) (p : Parser β) :
    Parser (List β) := fun i =>
  match p i with
  | PResult.Parsed r v =>
    match sepLoopGo sep p (r.length + 1) r with
    | PResult.Parsed r2 vs => PResult.Parsed r2 (v :: vs)
    | PResult.Incomplete => PResult.Incomplete
    | PResult.Error => PResult.Error
  | PResult.Incomplete => PResult.Incomplete
  | PResult.Error => PResult.Error

/-- One transition of the byte-level UTF-8 acceptor run by
`std::str::from_utf8`.  The state `(k, lo, hi)` means `k` continuation bytes
are still expected and the next byte must lie in `lo..=hi`; the start state
is `(0, 0, 0)`.  The ranges follow the standard table, so overlong forms,
surrogates and values above the last code point are rejected. -/
def utf8Step : Nat × Nat × Nat → Nat → Option (Nat × Nat × Nat)
  | (0, _, _), b =>
    if b ≤ 127 then some (0, 0, 0)
    else if 194 ≤ b && b ≤ 223 then some (1, 128, 191)
    else if b == 224 then some (2, 160, 191)
    else if (225 ≤ b && b ≤ 236) || (238 ≤ b && b ≤ 239) then some (2, 128, 191)
    else if b == 237 then some (2, 128, 159)
    else if b == 240 then some (3, 144, 191)
    else if 241 ≤ b && b ≤ 243 then some (3, 128, 191)
    else if b == 244 then some (3, 128, 143)
    else none
  | (Nat.succ k, lo, hi), b =>
    if lo ≤ b && b ≤ hi then some (k, 128, 191) else none

/-- Run of the UTF-8 acceptor; the input is valid when it ends in the start
state (no continuation bytes outstanding). -/
def utf8Run : Nat × Nat × Nat → List Nat → Bool
  | (0, _, _), [] => true
  | (Nat.succ _, _, _), [] => false
  | s, b :: r =>
    match utf8Step s b with
    | some s2 => utf8Run s2 r
    | none => false

/-- Byte-level UTF-8 validity, the check performed by `std::str::from_utf8`. -/
def utf8Valid (l : List Nat) : Bool := utf8Run (0, 0, 0) l

/-- `std::str::from_utf8`: the identity on valid UTF-8 byte sequences
(a `&str` is embedded as its UTF-8 bytes), an error otherwise. -/
def from_utf8 (l : List Nat) : Option (List Nat) :=
  if utf8Valid l then some l else none

/-- Greedy non-overlapping textual replacement, one scan step per byte, with
fuel (`str::replace` as used by the escape helpers; every pattern used there
is non-empty, and the guard keeps the empty pattern from looping). -/
def replaceGo (pat rep : List Nat) : Nat → List Nat → List Nat
  | 0, l => l
  | fuel + 1, l =>
    match l with
    | [] => []
    | b :: rest =>
      if pat.isPrefixOf (b :: rest) && ! pat.isEmpty then
        rep ++ replaceGo pat rep fuel ((b :: rest).drop pat.length)
      else
        b :: replaceGo pat rep fuel rest

/-- Rust `str::replace(pat, rep)`: replace each non-overlapping occurrence of
`pat`, scanning left to right. -/
def replaceList (l pat rep : List Nat) : List Nat := replaceGo pat rep l.length l

/-- Rust `str::contains(pat)`: substring occurrence test. -/
def containsSub : List Nat → List Nat → Bool
  | l, pat =>
    if pat.isPrefixOf l then true
    else
      match l with
      | [] => false
      | _ :: rest => containsSub rest pat

/-- Source `escape_quoted`: escape backslashes first (92 becomes 92 92), then
double quotes (34 becomes 92 34); the `contains` guards are the Cow
copy-avoidance of the source and do not change the resulting text. -/
def escape_quoted (unescaped : List Nat) : List Nat :=
  let escaped := unescaped
  let escaped :=
    if containsSub escaped [92] then replaceList escaped [92] [92, 92] else escaped
  let escaped :=
    if containsSub escaped [34] then replaceList escaped [34] [92, 34] else escaped
  escaped

/-- Source `unescape_quoted`: collapse 92 92 to 92 first, then 92 34 to 34. -/
def unescape_quoted (escaped : List Nat) : List Nat :=
  let unescaped := escaped
  let unescaped :=
    if containsSub unescaped [92, 92] then replaceList unescaped [92, 92] [92]
    else unescaped
  let unescaped :=
    if containsSub unescaped [92, 34] then replaceList unescaped [92, 34] [34]
    else unescaped
  unescaped

/-- Source `is_base64_char`: letters, digits, `+` (43) and `/` (47). -/
def is_base64_char (i : Nat) : Bool :=
  is_alphabetic i || is_digit i || i == 43 || i == 47

/-- Source `base64`: `recognize(tuple((take_while(is_base64_char),
opt(alt((tag("=="), tag("=")))))))` passed through `from_utf8`.
61 is `=`. -/
def base64 : Parser (List Nat) := fun input =>
  mapResC
    (recognizeC (tupleC (takeWhileC is_base64_char)
      (optC (altC (tagC [61, 61]) (tagC [61])))))
    from_utf8 input

/-- Rust `str::parse::<u32>` as applied to the output of `digit1`: the input
is a non-empty run of decimal digits; the value is an error when it exceeds
`u32::MAX` (checked arithmetic, never wraparound).  The sign handling of the
full `parse` implementation is irrelevant here since `digit1` only ever
passes digit runs. -/
def digitsToNat (l : List Nat) : Nat := l.foldl (fun acc b => acc * 10 + (b - 48)) 0

/-- Rust `str::parse::<u32>` restricted to digit runs produced by `digit1`. -/
def parse_u32 (s : List Nat) : Option Nat :=
  if s.isEmpty then none
  else if s.all is_digit then
    if digitsToNat s < 4294967296 then some (digitsToNat s) else none
  else none

/-- Source `number`: `map_res(map_res(digit1, from_utf8), str::parse::<u32>)`. -/
def number : Parser Nat := fun input =>
  mapResC (mapResC (takeWhile1C is_digit) from_utf8) parse_u32 input

/-- Source `is_atext`: letters, digits, and the allowed specials (bytes 33,
35, 36, 37, 38, 39, 42, 43, 45, 47, 61, 63, 94, 95, 96, 123, 124, 125, 126,
that is bang, hash, dollar, percent, ampersand, apostrophe, star, plus,
hyphen, slash, equals, question mark, caret, underscore, backtick, braces,
pipe, tilde). -/
def is_atext (byte : Nat) : Bool :=
  is_alphabetic byte || is_digit byte ||
    [33, 35, 36, 37, 38, 39, 42, 43, 45, 47, 61, 63, 94, 95, 96, 123, 124, 125,
      126].contains byte

/-- Source `Atom`: `map_res(take_while1(is_atext), from_utf8)`. -/
def Atom : Parser (List Nat) := fun input =>
  mapResC (takeWhile1C is_atext) from_utf8 input

/-- Source `is_qtextSMTP`: byte ranges 32-33, 35-91, 93-126. -/
def is_qtextSMTP (byte : Nat) : Bool :=
  (32 ≤ byte && byte ≤ 33) || (35 ≤ byte && byte ≤ 91) || (93 ≤ byte && byte ≤ 126)

/-- Source `quoted_pairSMTP`'s inner `is_value`: only 92 (backslash) and 34
(double quote) may follow the escaping backslash. -/
def is_value (byte : Nat) : Bool := byte == 92 || byte == 34

/-- Source `quoted_pairSMTP`:
`recognize(tuple((tag("\x5c"), take_while_m_n(1, 1, is_value))))`. -/
def quoted_pairSMTP : Parser (List Nat) := fun input =>
  recognizeC (tupleC (tagC [92]) (takeWhileMN 1 1 is_value)) input

/-- Source `QcontentSMTP`:
`recognize(alt((take_while_m_n(1, 1, is_qtextSMTP), quoted_pairSMTP)))`. -/
def QcontentSMTP : Parser (List Nat) := fun input =>
  recognizeC (altC (takeWhileMN 1 1 is_qtextSMTP) quoted_pairSMTP) input

/-- Source `Quoted_string`: a 34 (double quote), recognized `QcontentSMTP`
repetition through `from_utf8`, a closing 34, and the raw content passed
through `unescape_quoted` (the Cow tag of the result is a sharing
optimization invisible to the text value embedded here). -/
def Quoted_string : Parser (List Nat) := fun input =>
  mapC
    (delimitedC (tagC [34])
      (mapResC (recognizeC (many0C QcontentSMTP)) from_utf8)
      (tagC [34]))
    unescape_quoted input

/-- Modelled from the spec: `crate::types::AtomOrQuoted` (the file
`src/types.rs` is not part of the sources under verification).  Spec section 3:
a tagged union with exactly two variants, `Atom(text)` or `Quoted(text)`. -/
inductive AtomOrQuoted where
  | Atom (text : List Nat)
  | Quoted (text : List Nat)
deriving DecidableEq

/-- Source `String`: `alt((map(Atom, AtomOrQuoted::Atom),
map(Quoted_string, AtomOrQuoted::Quoted)))`. -/
def String : Parser AtomOrQuoted := fun input =>
  altC (mapC Atom AtomOrQuoted.Atom) (mapC Quoted_string AtomOrQuoted.Quoted) input

/-- Source `is_Let_dig`: letter or digit. -/
def is_Let_dig (byte : Nat) : Bool := is_alphabetic byte || is_digit byte

/-- Source `Ldh_str`: `recognize(many0(alt((take_while_m_n(1, 1,
is_alphabetic), take_while_m_n(1, 1, is_digit), recognize(tuple((tag("-"),
take_while_m_n(1, 1, is_Let_dig))))))))`.  45 is `-`. -/
def Ldh_str : Parser (List Nat) := fun input =>
  recognizeC
    (many0C
      (altC (takeWhileMN 1 1 is_alphabetic)
        (altC (takeWhileMN 1 1 is_digit)
          (recognizeC (tupleC (tagC [45]) (takeWhileMN 1 1 is_Let_dig))))))
    input

/-- Source `sub_domain`:
`recognize(tuple((take_while_m_n(1, 1, is_Let_dig), opt(Ldh_str))))`. -/
def sub_domain : Parser (List Nat) := fun input =>
  recognizeC (tupleC (takeWhileMN 1 1 is_Let_dig) (optC Ldh_str)) input

/-- Source `Domain`: `map_res(recognize(separated_list1(tag("."),
sub_domain)), from_utf8)`.  46 is `.`. -/
def Domain : Parser (List Nat) := fun input =>
  mapResC (recognizeC (separated_list1C (tagC [46]) sub_domain)) from_utf8 input

/-- Per-byte encoding realized by `escape_quoted`: 92 to 92 92, 34 to 92 34,
anything else kept. -/
def encByte (b : Nat) : List Nat :=
  if b = 92 then [92, 92] else if b = 34 then [92, 34] else [b]

/-- Per-byte shape of `unescape_quoted`'s first pass applied to escaped text:
escaped backslashes already collapsed, escaped quotes still in wire form. -/
def midByte (b : Nat) : List Nat := if b = 34 then [92, 34] else [b]

/-- Escaped wire shape required by the spec of `escape_quoted`'s output:
every 92 or 34 occurs only as part of a two-byte 92 92 or 92 34 escape. -/
def wellEscaped : List Nat → Bool
  | [] => true
  | [b] => decide (b ≠ 92) && decide (b ≠ 34)
  | b :: c :: rest =>
    if b = 92 then (decide (c = 92) || decide (c = 34)) && wellEscaped rest
    else decide (b ≠ 34) && wellEscaped (c :: rest)

/-- Well-formed escaped wire text in the sense of the grammar: a
concatenation of `qtextSMTP` bytes and the two-byte escapes 92 92 and
92 34. -/
def wireValid : List Nat → Bool
  | [] => true
  | [b] => is_qtextSMTP b
  | b :: c :: rest =>
    if b = 92 then (decide (c = 92) || decide (c = 34)) && wireValid rest
    else is_qtextSMTP b && wireValid (c :: rest)

/-- Remainder-is-suffix and buffer-extension laws of a streaming parser:
a successful parse leaves a suffix of the input, a successful parse is stable
under appending bytes past the remainder, and a recoverable error is
likewise stable (more input cannot fix a definitive mismatch). -/
structure GoodParser {α : Type} (p : Parser α) : Prop where
  suffix : ∀ i rem v, p i = PResult.Parsed rem v → ∃ pre, i = pre ++ rem
  ext_parsed : ∀ i e rem v, p i = PResult.Parsed rem v →
    p (i ++ e) = PResult.Parsed (rem ++ e) v
  ext_error : ∀ i e, p i = PResult.Error → p (i ++ e) = PResult.Error

/-! ## Lemmas about the position search -/

theorem splitPos_some_lt {f : Nat → Bool} :
    ∀ {l : List Nat} {j : Nat}, splitPos f l = some j → j < l.length := by
  intro l
  induction l with
  | nil => intro j h; simp [splitPos] at h
  | cons b rest ih =>
    intro j h
    simp only [splitPos] at h
    simp only [List.length_cons]
    by_cases hb : f b
    · simp [hb] at h; omega
    · simp [hb] at h
      obtain ⟨j', hj', rfl⟩ := h
      have := ih hj'
      omega

theorem splitPos_append_some {f : Nat → Bool} :
    ∀ {l : List Nat} {j : Nat} (e : List Nat),
      splitPos f l = some j → splitPos f (l ++ e) = some j := by
  intro l
  induction l with
  | nil => intro j e h; simp [splitPos] at h
  | cons b rest ih =>
    intro j e h
    simp only [splitPos] at h ⊢
    by_cases hb : f b
    · simp [hb] at h ⊢; omega
    · simp [hb] at h ⊢
      obtain ⟨j', hj', rfl⟩ := h
      exact ⟨j', ih e hj', rfl⟩

theorem splitPos_append_none {f : Nat → Bool} :
    ∀ {l : List Nat} (e : List Nat), splitPos f l = none →
      splitPos f (l ++ e) = (splitPos f e).map (fun j => j + l.length) := by
  intro l
  induction l with
  | nil => intro e _; cases h : splitPos f e <;> simp [h]
  | cons b rest ih =>
    intro e h
    rw [List.cons_append]
    simp only [splitPos] at h ⊢
    by_cases hb : f b
    · simp [hb] at h
    · simp only [hb, if_false] at h ⊢
      have hrest : splitPos f rest = none := by
        cases hr : splitPos f rest <;> simp [hr] at h ⊢
      rw [ih e hrest]
      cases he : splitPos f e <;> (simp [List.length_cons]; try omega)

theorem splitPos_none_all {f : Nat → Bool} :
    ∀ {l : List Nat}, splitPos f l = none → ∀ b ∈ l, f b = false := by
  intro l
  induction l with
  | nil => intro _ b hb; simp at hb
  | cons c rest ih =>
    intro h b hb
    simp only [splitPos] at h
    by_cases hc : f c
    · simp [hc] at h
    · simp only [hc, if_false] at h
      have hrest : splitPos f rest = none := by
        cases hr : splitPos f rest <;> simp [hr] at h ⊢
      rcases List.mem_cons.mp hb with rfl | hb'
      · simpa using hc
      · exact ih hrest b hb'

theorem splitPos_take_all {f : Nat → Bool} :
    ∀ {l : List Nat} {j : Nat}, splitPos f l = some j →
      ∀ b ∈ l.take j, f b = false := by
  intro l
  induction l with
  | nil => intro j h; simp [splitPos] at h
  | cons c rest ih =>
    intro j h b hb
    simp only [splitPos] at h
    by_cases hc : f c
    · simp [hc] at h; subst h; simp at hb
    · simp only [hc, if_false] at h
      cases hr : splitPos f rest with
      | none => simp [hr] at h
      | some j' =>
        simp [hr] at h
        subst h
        simp only [List.take_succ_cons] at hb
        rcases List.mem_cons.mp hb with rfl | hb'
        · simpa using hc
        · exact ih hr b hb'

/-! ## Remainder and extension laws of the primitive parsers -/

theorem takeWhileC_split {p : Nat → Bool} {i rem v : List Nat}
    (h : takeWhileC p i = PResult.Parsed rem v) :
    i = v ++ rem ∧ ∀ b ∈ v, p b = true := by
  unfold takeWhileC at h
  cases hs : splitPos (fun b => ! p b) i with
  | some idx =>
    rw [hs] at h
    cases h
    refine ⟨(List.take_append_drop idx i).symm, ?_⟩
    intro b hb
    have := splitPos_take_all hs b hb
    simpa using this
  | none => rw [hs] at h; cases h

theorem takeWhile1C_split {p : Nat → Bool} {i rem v : List Nat}
    (h : takeWhile1C p i = PResult.Parsed rem v) :
    i = v ++ rem ∧ (∀ b ∈ v, p b = true) ∧ v ≠ [] := by
  unfold takeWhile1C at h
  cases hs : splitPos (fun b => ! p b) i with
  | some idx =>
    rw [hs] at h
    cases idx with
    | zero => cases h
    | succ k =>
      cases h
      refine ⟨(List.take_append_drop _ i).symm, ?_, ?_⟩
      · intro b hb
        have := splitPos_take_all hs b hb
        simpa using this
      · intro hnil
        rcases List.take_eq_nil_iff.mp hnil with h0 | h0
        · omega
        · subst h0; simp [splitPos] at hs
  | none => rw [hs] at h; cases h

theorem good_takeWhileC (p : Nat → Bool) : GoodParser (takeWhileC p) := by
  constructor
  · intro i rem v h
    exact ⟨v, (takeWhileC_split h).1⟩
  · intro i e rem v h
    unfold takeWhileC at h
    cases hs : splitPos (fun b => ! p b) i with
    | some idx =>
      rw [hs] at h
      cases h
      have hlt : idx < i.length := splitPos_some_lt hs
      have hstep : takeWhileC p (i ++ e) =
          PResult.Parsed ((i ++ e).drop idx) ((i ++ e).take idx) := by
        unfold takeWhileC
        rw [splitPos_append_some e hs]
      rw [hstep, List.take_append_of_le_length (by omega),
        List.drop_append_of_le_length (by omega)]
    | none => rw [hs] at h; cases h
  · intro i e h
    unfold takeWhileC at h
    cases hs : splitPos (fun b => ! p b) i <;> rw [hs] at h <;> cases h

theorem good_takeWhile1C (p : Nat → Bool) : GoodParser (takeWhile1C p) := by
  constructor
  · intro i rem v h
    exact ⟨v, (takeWhile1C_split h).1⟩
  · intro i e rem v h
    unfold takeWhile1C at h
    cases hs : splitPos (fun b => ! p b) i with
    | some idx =>
      rw [hs] at h
      cases idx with
      | zero => cases h
      | succ k =>
        cases h
        have hlt : k.succ < i.length := splitPos_some_lt hs
        have hstep : takeWhile1C p (i ++ e) =
            PResult.Parsed ((i ++ e).drop (k + 1)) ((i ++ e).take (k + 1)) := by
          unfold takeWhile1C
          rw [splitPos_append_some e hs]
          rfl
        rw [hstep, List.take_append_of_le_length (by omega),
          List.drop_append_of_le_length (by omega)]
    | none => rw [hs] at h; cases h
  · intro i e h
    unfold takeWhile1C at h
    cases hs : splitPos (fun b => ! p b) i with
    | some idx =>
      rw [hs] at h
      cases idx with
      | zero =>
        unfold takeWhile1C
        rw [splitPos_append_some e hs]
      | succ k => cases h
    | none => rw [hs] at h; cases h

theorem takeWhileMN_eq_of_some {m n : Nat} {p : Nat → Bool} {i : List Nat}
    {idx : Nat} (hs : splitPos (fun b => ! p b) i = some idx) :
    takeWhileMN m n p i =
      if m ≤ idx then
        PResult.Parsed (i.drop (min idx n)) (i.take (min idx n))
      else PResult.Error := by
  unfold takeWhileMN
  rw [hs]

theorem takeWhileMN_eq_of_none {m n : Nat} {p : Nat → Bool} {i : List Nat}
    (hs : splitPos (fun b => ! p b) i = none) :
    takeWhileMN m n p i =
      if n ≤ i.length then PResult.Parsed (i.drop n) (i.take n)
      else PResult.Incomplete := by
  unfold takeWhileMN
  rw [hs]

theorem takeWhileMN_split {m n : Nat} {p : Nat → Bool} {i rem v : List Nat}
    (h : takeWhileMN m n p i = PResult.Parsed rem v) :
    i = v ++ rem ∧ (∀ b ∈ v, p b = true) := by
  cases hs : splitPos (fun b => ! p b) i with
  | some idx =>
    rw [takeWhileMN_eq_of_some hs] at h
    by_cases hm : m ≤ idx
    · rw [if_pos hm] at h
      cases h
      refine ⟨(List.take_append_drop _ i).symm, ?_⟩
      intro b hb
      have hsub : i.take (min idx n) = (i.take idx).take (min idx n) := by
        rw [List.take_take]
        congr 1
        omega
      rw [hsub] at hb
      have hb' : b ∈ i.take idx := List.mem_of_mem_take hb
      have := splitPos_take_all hs b hb'
      simpa using this
    · rw [if_neg hm] at h; cases h
  | none =>
    rw [takeWhileMN_eq_of_none hs] at h
    by_cases hn : n ≤ i.length
    · rw [if_pos hn] at h
      cases h
      refine ⟨(List.take_append_drop _ i).symm, ?_⟩
      intro b hb
      have := splitPos_none_all hs b (List.mem_of_mem_take hb)
      simpa using this
    · rw [if_neg hn] at h; cases h

theorem good_takeWhileMN (m n : Nat) (hmn : m ≤ n) (p : Nat → Bool) :
    GoodParser (takeWhileMN m n p) := by
  constructor
  · intro i rem v h
    exact ⟨v, (takeWhileMN_split h).1⟩
  · intro i e rem v h
    cases hs : splitPos (fun b => ! p b) i with
    | some idx =>
      rw [takeWhileMN_eq_of_some hs] at h
      by_cases hm : m ≤ idx
      · rw [if_pos hm] at h
        cases h
        have hlt : idx < i.length := splitPos_some_lt hs
        rw [takeWhileMN_eq_of_some (splitPos_append_some e hs), if_pos hm,
          List.take_append_of_le_length (by omega),
          List.drop_append_of_le_length (by omega)]
      · rw [if_neg hm] at h; cases h
    | none =>
      rw [takeWhileMN_eq_of_none hs] at h
      by_cases hn : n ≤ i.length
      · rw [if_pos hn] at h
        cases h
        have hout : takeWhileMN m n p (i ++ e) =
            PResult.Parsed ((i ++ e).drop n) ((i ++ e).take n) := by
          cases he : splitPos (fun b => ! p b) e with
          | some j =>
            have hsome : splitPos (fun b => ! p b) (i ++ e) = some (j + i.length) := by
              rw [splitPos_append_none e hs, he]
              rfl
            rw [takeWhileMN_eq_of_some hsome, if_pos (by omega)]
            rw [min_eq_right (by omega : n ≤ j + i.length)]
          | none =>
            have hnone : splitPos (fun b => ! p b) (i ++ e) = none := by
              rw [splitPos_append_none e hs, he]
              rfl
            rw [takeWhileMN_eq_of_none hnone,
              if_pos (by simp only [List.length_append]; omega)]
        rw [hout, List.take_append_of_le_length (by omega),
          List.drop_append_of_le_length (by omega)]
      · rw [if_neg hn] at h; cases h
  · intro i e h
    cases hs : splitPos (fun b => ! p b) i with
    | some idx =>
      rw [takeWhileMN_eq_of_some hs] at h
      by_cases hm : m ≤ idx
      · rw [if_pos hm] at h; cases h
      · rw [takeWhileMN_eq_of_some (splitPos_append_some e hs), if_neg hm]
    | none =>
      rw [takeWhileMN_eq_of_none hs] at h
      by_cases hn : n ≤ i.length
      · rw [if_pos hn] at h; cases h
      · rw [if_neg hn] at h; cases h

theorem tagC_split {t i rem v : List Nat} (h : tagC t i = PResult.Parsed rem v) :
    v = t ∧ i = t ++ rem := by
  unfold tagC at h
  by_cases hl : t.length ≤ i.length
  · rw [if_pos hl] at h
    by_cases ht : i.take t.length = t
    · rw [if_pos ht] at h
      cases h
      refine ⟨rfl, ?_⟩
      conv =>
        lhs
        rw [← List.take_append_drop t.length i]
      rw [ht]
    · rw [if_neg ht] at h; cases h
  · rw [if_neg hl] at h
    by_cases hp : t.take i.length = i
    · rw [if_pos hp] at h; cases h
    · rw [if_neg hp] at h; cases h

theorem good_tagC (t : List Nat) : GoodParser (tagC t) := by
  constructor
  · intro i rem v h
    exact ⟨t, (tagC_split h).2⟩
  · intro i e rem v h
    unfold tagC at h
    by_cases hl : t.length ≤ i.length
    · rw [if_pos hl] at h
      by_cases ht : i.take t.length = t
      · rw [if_pos ht] at h
        cases h
        unfold tagC
        rw [if_pos (by simp only [List.length_append]; omega),
          List.take_append_of_le_length hl, if_pos ht,
          List.drop_append_of_le_length hl]
      · rw [if_neg ht] at h; cases h
    · rw [if_neg hl] at h
      by_cases hp : t.take i.length = i
      · rw [if_pos hp] at h; cases h
      · rw [if_neg hp] at h; cases h
  · intro i e h
    unfold tagC at h ⊢
    by_cases hl : t.length ≤ i.length
    · rw [if_pos hl] at h
      by_cases ht : i.take t.length = t
      · rw [if_pos ht] at h; cases h
      · rw [if_neg ht] at h
        rw [if_pos (by simp only [List.length_append]; omega),
          List.take_append_of_le_length hl, if_neg ht]
    · rw [if_neg hl] at h
      by_cases hp : t.take i.length = i
      · rw [if_pos hp] at h; cases h
      · rw [if_neg hp] at h
        have hkey : ¬ ((i ++ e).take t.length = t) := by
          intro hcontra
          apply hp
          have hth : ((i ++ e).take t.length).take i.length =
              (i ++ e).take i.length := by
            rw [List.take_take, min_eq_left (by omega)]
          rw [hcontra, List.take_left] at hth
          exact hth
        by_cases hl2 : t.length ≤ (i ++ e).length
        · rw [if_pos hl2, if_neg hkey]
        · rw [if_neg hl2, if_neg ?hne]
          case hne =>
            intro hcontra
            apply hp
            have hth : (t.take (i ++ e).length).take i.length =
                (i ++ e).take i.length := by
              rw [hcontra]
            rw [List.take_take, List.take_left,
              min_eq_left (by simp only [List.length_append]; omega)] at hth
            exact hth

/-! ## Closure of the parser laws under the nom combinators -/

theorem good_mapC {α β : Type} {p : Parser α} (hp : GoodParser p) (f : α → β) :
    GoodParser (mapC p f) := by
  constructor
  · intro i rem v h
    unfold mapC at h
    cases hpi : p i with
    | Parsed r w =>
      simp only [hpi] at h
      cases h
      exact hp.suffix i _ w hpi
    | Incomplete => simp only [hpi] at h; cases h
    | Error => simp only [hpi] at h; cases h
  · intro i e rem v h
    unfold mapC at h ⊢
    cases hpi : p i with
    | Parsed r w =>
      simp only [hpi] at h
      simp only [hp.ext_parsed i e r w hpi]
      cases h
      rfl
    | Incomplete => simp only [hpi] at h; cases h
    | Error => simp only [hpi] at h; cases h
  · intro i e h
    unfold mapC at h ⊢
    cases hpi : p i with
    | Parsed r w => simp only [hpi] at h; cases h
    | Incomplete => simp only [hpi] at h; cases h
    | Error => simp only [hp.ext_error i e hpi]

theorem good_mapResC {α β : Type} {p : Parser α} (hp : GoodParser p)
    (f : α → Option β) : GoodParser (mapResC p f) := by
  constructor
  · intro i rem v h
    unfold mapResC at h
    cases hpi : p i with
    | Parsed r w =>
      simp only [hpi] at h
      cases hf : f w with
      | some u =>
        simp only [hf] at h
        cases h
        exact hp.suffix i _ w hpi
      | none => simp only [hf] at h; cases h
    | Incomplete => simp only [hpi] at h; cases h
    | Error => simp only [hpi] at h; cases h
  · intro i e rem v h
    unfold mapResC at h ⊢
    cases hpi : p i with
    | Parsed r w =>
      simp only [hpi] at h
      simp only [hp.ext_parsed i e r w hpi]
      cases hf : f w with
      | some u =>
        simp only [hf] at h ⊢
        cases h
        rfl
      | none => simp only [hf] at h; cases h
    | Incomplete => simp only [hpi] at h; cases h
    | Error => simp only [hpi] at h; cases h
  · intro i e h
    unfold mapResC at h ⊢
    cases hpi : p i with
    | Parsed r w =>
      simp only [hpi] at h
      simp only [hp.ext_parsed i e r w hpi]
      cases hf : f w with
      | some u => simp only [hf] at h; cases h
      | none => simp only [hf]
    | Incomplete => simp only [hpi] at h; cases h
    | Error => simp only [hp.ext_error i e hpi]

theorem good_altC {α : Type} {a b : Parser α} (ha : GoodParser a)
    (hb : GoodParser b) : GoodParser (altC a b) := by
  constructor
  · intro i rem v h
    unfold altC at h
    cases hai : a i with
    | Parsed r w =>
      simp only [hai] at h
      cases h
      exact ha.suffix i _ _ hai
    | Incomplete => simp only [hai] at h; cases h
    | Error =>
      simp only [hai] at h
      exact hb.suffix i rem v h
  · intro i e rem v h
    unfold altC at h ⊢
    cases hai : a i with
    | Parsed r w =>
      simp only [hai] at h
      simp only [ha.ext_parsed i e r w hai]
      cases h
      rfl
    | Incomplete => simp only [hai] at h; cases h
    | Error =>
      simp only [hai] at h
      simp only [ha.ext_error i e hai]
      exact hb.ext_parsed i e rem v h
  · intro i e h
    unfold altC at h ⊢
    cases hai : a i with
    | Parsed r w => simp only [hai] at h; cases h
    | Incomplete => simp only [hai] at h; cases h
    | Error =>
      simp only [hai] at h
      simp only [ha.ext_error i e hai]
      exact hb.ext_error i e h

theorem good_optC {α : Type} {p : Parser α} (hp : GoodParser p) :
    GoodParser (optC p) := by
  constructor
  · intro i rem v h
    unfold optC at h
    cases hpi : p i with
    | Parsed r w =>
      simp only [hpi] at h
      cases h
      exact hp.suffix i _ w hpi
    | Incomplete => simp only [hpi] at h; cases h
    | Error =>
      simp only [hpi] at h
      cases h
      exact ⟨[], rfl⟩
  · intro i e rem v h
    unfold optC at h ⊢
    cases hpi : p i with
    | Parsed r w =>
      simp only [hpi] at h
      simp only [hp.ext_parsed i e r w hpi]
      cases h
      rfl
    | Incomplete => simp only [hpi] at h; cases h
    | Error =>
      simp only [hpi] at h
      simp only [hp.ext_error i e hpi]
      cases h
      rfl
  · intro i e h
    unfold optC at h
    cases hpi : p i <;> simp only [hpi] at h <;> cases h

theorem good_tupleC {α β : Type} {a : Parser α} {b : Parser β}
    (ha : GoodParser a) (hb : GoodParser b) : GoodParser (tupleC a b) := by
  constructor
  · intro i rem v h
    unfold tupleC at h
    cases hai : a i with
    | Parsed r1 v1 =>
      simp only [hai] at h
      cases hbi : b r1 with
      | Parsed r2 v2 =>
        simp only [hbi] at h
        cases h
        obtain ⟨p1, hp1⟩ := ha.suffix i r1 v1 hai
        obtain ⟨p2, hp2⟩ := hb.suffix r1 _ v2 hbi
        exact ⟨p1 ++ p2, by rw [hp1, hp2, List.append_assoc]⟩
      | Incomplete => simp only [hbi] at h; cases h
      | Error => simp only [hbi] at h; cases h
    | Incomplete => simp only [hai] at h; cases h
    | Error => simp only [hai] at h; cases h
  · intro i e rem v h
    unfold tupleC at h ⊢
    cases hai : a i with
    | Parsed r1 v1 =>
      simp only [hai] at h
      simp only [ha.ext_parsed i e r1 v1 hai]
      cases hbi : b r1 with
      | Parsed r2 v2 =>
        simp only [hbi] at h
        simp only [hb.ext_parsed r1 e r2 v2 hbi]
        cases h
        rfl
      | Incomplete => simp only [hbi] at h; cases h
      | Error => simp only [hbi] at h; cases h
    | Incomplete => simp only [hai] at h; cases h
    | Error => simp only [hai] at h; cases h
  · intro i e h
    unfold tupleC at h ⊢
    cases hai : a i with
    | Parsed r1 v1 =>
      simp only [hai] at h
      simp only [ha.ext_parsed i e r1 v1 hai]
      cases hbi : b r1 with
      | Parsed r2 v2 => simp only [hbi] at h; cases h
      | Incomplete => simp only [hbi] at h; cases h
      | Error => simp only [hb.ext_error r1 e hbi]
    | Incomplete => simp only [hai] at h; cases h
    | Error => simp only [ha.ext_error i e hai]

theorem good_recognizeC {α : Type} {p : Parser α} (hp : GoodParser p) :
    GoodParser (recognizeC p) := by
  constructor
  · intro i rem v h
    unfold recognizeC at h
    cases hpi : p i with
    | Parsed r w =>
      simp only [hpi] at h
      cases h
      exact hp.suffix i _ w hpi
    | Incomplete => simp only [hpi] at h; cases h
    | Error => simp only [hpi] at h; cases h
  · intro i e rem v h
    unfold recognizeC at h ⊢
    cases hpi : p i with
    | Parsed r w =>
      simp only [hpi] at h
      simp only [hp.ext_parsed i e r w hpi]
      obtain ⟨pre, hpre⟩ := hp.suffix i r w hpi
      have hrle : r.length ≤ i.length := by
        rw [hpre, List.length_append]; omega
      have hlen : (i ++ e).length - (r ++ e).length = i.length - r.length := by
        simp only [List.length_append]; omega
      rw [hlen, List.take_append_of_le_length (by omega)]
      cases h
      rfl
    | Incomplete => simp only [hpi] at h; cases h
    | Error => simp only [hpi] at h; cases h
  · intro i e h
    unfold recognizeC at h ⊢
    cases hpi : p i with
    | Parsed r w => simp only [hpi] at h; cases h
    | Incomplete => simp only [hpi] at h; cases h
    | Error => simp only [hp.ext_error i e hpi]

theorem recognizeC_split {α : Type} {p : Parser α} (hp : GoodParser p)
    {i rem v : List Nat} (h : recognizeC p i = PResult.Parsed rem v) :
    i = v ++ rem := by
  unfold recognizeC at h
  cases hpi : p i with
  | Parsed r w =>
    simp only [hpi] at h
    obtain ⟨pre, hpre⟩ := hp.suffix i r w hpi
    have hlen : i.length - r.length = pre.length := by
      rw [hpre, List.length_append]; omega
    rw [hlen, hpre, List.take_left] at h
    cases h
    exact hpre
  | Incomplete => simp only [hpi] at h; cases h
  | Error => simp only [hpi] at h; cases h

theorem good_delimitedC {α β γ : Type} {a : Parser α} {b : Parser β}
    {c : Parser γ} (ha : GoodParser a) (hb : GoodParser b) (hc : GoodParser c) :
    GoodParser (delimitedC a b c) := by
  constructor
  · intro i rem v h
    unfold delimitedC at h
    cases hai : a i with
    | Parsed r1 v1 =>
      simp only [hai] at h
      cases hbi : b r1 with
      | Parsed r2 v2 =>
        simp only [hbi] at h
        cases hci : c r2 with
        | Parsed r3 v3 =>
          simp only [hci] at h
          cases h
          obtain ⟨p1, hp1⟩ := ha.suffix i r1 v1 hai
          obtain ⟨p2, hp2⟩ := hb.suffix r1 r2 _ hbi
          obtain ⟨p3, hp3⟩ := hc.suffix r2 _ _ hci
          refine ⟨p1 ++ (p2 ++ p3), ?_⟩
          rw [hp1, hp2, hp3]
          simp [List.append_assoc]
        | Incomplete => simp only [hci] at h; cases h
        | Error => simp only [hci] at h; cases h
      | Incomplete => simp only [hbi] at h; cases h
      | Error => simp only [hbi] at h; cases h
    | Incomplete => simp only [hai] at h; cases h
    | Error => simp only [hai] at h; cases h
  · intro i e rem v h
    unfold delimitedC at h ⊢
    cases hai : a i with
    | Parsed r1 v1 =>
      simp only [hai] at h
      simp only [ha.ext_parsed i e r1 v1 hai]
      cases hbi : b r1 with
      | Parsed r2 v2 =>
        simp only [hbi] at h
        simp only [hb.ext_parsed r1 e r2 v2 hbi]
        cases hci : c r2 with
        | Parsed r3 v3 =>
          simp only [hci] at h
          simp only [hc.ext_parsed r2 e r3 v3 hci]
          cases h
          rfl
        | Incomplete => simp only [hci] at h; cases h
        | Error => simp only [hci] at h; cases h
      | Incomplete => simp only [hbi] at h; cases h
      | Error => simp only [hbi] at h; cases h
    | Incomplete => simp only [hai] at h; cases h
    | Error => simp only [hai] at h; cases h
  · intro i e h
    unfold delimitedC at h ⊢
    cases hai : a i with
    | Parsed r1 v1 =>
      simp only [hai] at h
      simp only [ha.ext_parsed i e r1 v1 hai]
      cases hbi : b r1 with
      | Parsed r2 v2 =>
        simp only [hbi] at h
        simp only [hb.ext_parsed r1 e r2 v2 hbi]
        cases hci : c r2 with
        | Parsed r3 v3 => simp only [hci] at h; cases h
        | Incomplete => simp only [hci] at h; cases h
        | Error => simp only [hc.ext_error r2 e hci]
      | Incomplete => simp only [hbi] at h; cases h
      | Error => simp only [hb.ext_error r1 e hbi]
    | Incomplete => simp only [hai] at h; cases h
    | Error => simp only [ha.ext_error i e hai]

/-! ## The repetition loops, by induction on fuel

The fuel hypotheses `length < fuel` record that the embedded runs always
start with fuel `length + 1`, so the out-of-fuel branch is never taken. -/

theorem many0Go_suffix {α : Type} {p : Parser α} (hp : GoodParser p) :
    ∀ (fuel : Nat) (i rem : List Nat) (v : List α),
      many0Go p fuel i = PResult.Parsed rem v → ∃ pre, i = pre ++ rem := by
  intro fuel
  induction fuel with
  | zero => intro i rem v h; simp [many0Go] at h
  | succ fuel ih =>
    intro i rem v h
    simp only [many0Go] at h
    cases hpi : p i with
    | Error =>
      simp only [hpi] at h
      cases h
      exact ⟨[], rfl⟩
    | Incomplete => simp only [hpi] at h; cases h
    | Parsed r w =>
      simp only [hpi] at h
      by_cases hlt : r.length < i.length
      · rw [if_pos hlt] at h
        cases hm : many0Go p fuel r with
        | Parsed r2 vs =>
          simp only [hm] at h
          cases h
          obtain ⟨p1, hp1⟩ := hp.suffix i r w hpi
          obtain ⟨p2, hp2⟩ := ih r _ vs hm
          exact ⟨p1 ++ p2, by rw [hp1, hp2, List.append_assoc]⟩
        | Incomplete => simp only [hm] at h; cases h
        | Error => simp only [hm] at h; cases h
      · rw [if_neg hlt] at h; cases h

theorem many0Go_ext_parsed {α : Type} {p : Parser α} (hp : GoodParser p) :
    ∀ (f1 f2 : Nat) (i e rem : List Nat) (v : List α),
      i.length < f1 → (i ++ e).length < f2 →
      many0Go p f1 i = PResult.Parsed rem v →
      many0Go p f2 (i ++ e) = PResult.Parsed (rem ++ e) v := by
  intro f1
  induction f1 with
  | zero => intro f2 i e rem v h1 h2 h; omega
  | succ f1 ih =>
    intro f2 i e rem v h1 h2 h
    cases f2 with
    | zero => omega
    | succ f2 =>
      simp only [many0Go] at h ⊢
      cases hpi : p i with
      | Error =>
        simp only [hpi] at h
        cases h
        simp only [hp.ext_error i e hpi]
      | Incomplete => simp only [hpi] at h; cases h
      | Parsed r w =>
        simp only [hpi] at h
        simp only [hp.ext_parsed i e r w hpi]
        by_cases hlt : r.length < i.length
        · rw [if_pos hlt] at h
          rw [if_pos (by simp only [List.length_append]; omega)]
          cases hm : many0Go p f1 r with
          | Parsed r2 vs =>
            simp only [hm] at h
            have hre : (r ++ e).length < f2 := by
              simp only [List.length_append] at h2 ⊢
              omega
            simp only [ih f2 r e r2 vs (by omega) hre hm]
            cases h
            rfl
          | Incomplete => simp only [hm] at h; cases h
          | Error => simp only [hm] at h; cases h
        · rw [if_neg hlt] at h; cases h

theorem many0Go_ext_error {α : Type} {p : Parser α} (hp : GoodParser p) :
    ∀ (f1 f2 : Nat) (i e : List Nat),
      i.length < f1 → (i ++ e).length < f2 →
      many0Go p f1 i = PResult.Error →
      many0Go p f2 (i ++ e) = PResult.Error := by
  intro f1
  induction f1 with
  | zero => intro f2 i e h1 h2 h; omega
  | succ f1 ih =>
    intro f2 i e h1 h2 h
    cases f2 with
    | zero => omega
    | succ f2 =>
      simp only [many0Go] at h ⊢
      cases hpi : p i with
      | Error => simp only [hpi] at h; cases h
      | Incomplete => simp only [hpi] at h; cases h
      | Parsed r w =>
        simp only [hpi] at h
        simp only [hp.ext_parsed i e r w hpi]
        by_cases hlt : r.length < i.length
        · rw [if_pos hlt] at h
          rw [if_pos (by simp only [List.length_append]; omega)]
          cases hm : many0Go p f1 r with
          | Parsed r2 vs => simp only [hm] at h; cases h
          | Incomplete => simp only [hm] at h; cases h
          | Error =>
            have hre : (r ++ e).length < f2 := by
              simp only [List.length_append] at h2 ⊢
              omega
            simp only [ih f2 r e (by omega) hre hm]
        · rw [if_neg hlt] at h
          rw [if_neg (by simp only [List.length_append]; omega)]

theorem good_many0C {α : Type} {p : Parser α} (hp : GoodParser p) :
    GoodParser (many0C p) := by
  constructor
  · intro i rem v h
    exact many0Go_suffix hp _ i rem v h
  · intro i e rem v h
    exact many0Go_ext_parsed hp (i.length + 1) ((i ++ e).length + 1) i e rem v
      (by omega) (by omega) h
  · intro i e h
    exact many0Go_ext_error hp (i.length + 1) ((i ++ e).length + 1) i e
      (by omega) (by omega) h

theorem sepLoopGo_suffix {α β : Type} {sep : Parser α} {p : Parser β}
    (hsep : GoodParser sep) (hp : GoodParser p) :
    ∀ (fuel : Nat) (i rem : List Nat) (v : List β),
      sepLoopGo sep p fuel i = PResult.Parsed rem v → ∃ pre, i = pre ++ rem := by
  intro fuel
  induction fuel with
  | zero => intro i rem v h; simp [sepLoopGo] at h
  | succ fuel ih =>
    intro i rem v h
    simp only [sepLoopGo] at h
    cases hsi : sep i with
    | Error =>
      simp only [hsi] at h
      cases h
      exact ⟨[], rfl⟩
    | Incomplete => simp only [hsi] at h; cases h
    | Parsed i1 u =>
      simp only [hsi] at h
      by_cases hlt : i1.length < i.length
      · rw [if_pos hlt] at h
        cases hpi : p i1 with
        | Error =>
          simp only [hpi] at h
          cases h
          exact ⟨[], rfl⟩
        | Incomplete => simp only [hpi] at h; cases h
        | Parsed i2 w =>
          simp only [hpi] at h
          by_cases hle : i2.length ≤ i1.length
          · rw [if_pos hle] at h
            cases hm : sepLoopGo sep p fuel i2 with
            | Parsed r2 vs =>
              simp only [hm] at h
              cases h
              obtain ⟨p1, hp1⟩ := hsep.suffix i i1 u hsi
              obtain ⟨p2, hp2⟩ := hp.suffix i1 i2 w hpi
              obtain ⟨p3, hp3⟩ := ih i2 _ vs hm
              refine ⟨p1 ++ (p2 ++ p3), ?_⟩
              rw [hp1, hp2, hp3]
              simp [List.append_assoc]
            | Incomplete => simp only [hm] at h; cases h
            | Error => simp only [hm] at h; cases h
          · rw [if_neg hle] at h; cases h
      · rw [if_neg hlt] at h; cases h

theorem sepLoopGo_ext_parsed {α β : Type} {sep : Parser α} {p : Parser β}
    (hsep : GoodParser sep) (hp : GoodParser p) :
    ∀ (f1 f2 : Nat) (i e rem : List Nat) (v : List β),
      i.length < f1 → (i ++ e).length < f2 →
      sepLoopGo sep p f1 i = PResult.Parsed rem v →
      sepLoopGo sep p f2 (i ++ e) = PResult.Parsed (rem ++ e) v := by
  intro f1
  induction f1 with
  | zero => intro f2 i e rem v h1 h2 h; omega
  | succ f1 ih =>
    intro f2 i e rem v h1 h2 h
    cases f2 with
    | zero => omega
    | succ f2 =>
      simp only [sepLoopGo] at h ⊢
      cases hsi : sep i with
      | Error =>
        simp only [hsi] at h
        cases h
        simp only [hsep.ext_error i e hsi]
      | Incomplete => simp only [hsi] at h; cases h
      | Parsed i1 u =>
        simp only [hsi] at h
        simp only [hsep.ext_parsed i e i1 u hsi]
        by_cases hlt : i1.length < i.length
        · rw [if_pos hlt] at h
          rw [if_pos (by simp only [List.length_append]; omega)]
          cases hpi : p i1 with
          | Error =>
            simp only [hpi] at h
            cases h
            simp only [hp.ext_error i1 e hpi]
          | Incomplete => simp only [hpi] at h; cases h
          | Parsed i2 w =>
            simp only [hpi] at h
            simp only [hp.ext_parsed i1 e i2 w hpi]
            by_cases hle : i2.length ≤ i1.length
            · rw [if_pos hle] at h
              rw [if_pos (by simp only [List.length_append]; omega)]
              cases hm : sepLoopGo sep p f1 i2 with
              | Parsed r2 vs =>
                simp only [hm] at h
                have hi2e : (i2 ++ e).length < f2 := by
                  simp only [List.length_append] at h2 ⊢
                  omega
                simp only [ih f2 i2 e r2 vs (by omega) hi2e hm]
                cases h
                rfl
              | Incomplete => simp only [hm] at h; cases h
              | Error => simp only [hm] at h; cases h
            · rw [if_neg hle] at h; cases h
        · rw [if_neg hlt] at h; cases h

theorem sepLoopGo_ext_error {α β : Type} {sep : Parser α} {p : Parser β}
    (hsep : GoodParser sep) (hp : GoodParser p) :
    ∀ (f1 f2 : Nat) (i e : List Nat),
      i.length < f1 → (i ++ e).length < f2 →
      sepLoopGo sep p f1 i = PResult.Error →
      sepLoopGo sep p f2 (i ++ e) = PResult.Error := by
  intro f1
  induction f1 with
  | zero => intro f2 i e h1 h2 h; omega
  | succ f1 ih =>
    intro f2 i e h1 h2 h
    cases f2 with
    | zero => omega
    | succ f2 =>
      simp only [sepLoopGo] at h ⊢
      cases hsi : sep i with
      | Error => simp only [hsi] at h; cases h
      | Incomplete => simp only [hsi] at h; cases h
      | Parsed i1 u =>
        simp only [hsi] at h
        simp only [hsep.ext_parsed i e i1 u hsi]
        by_cases hlt : i1.length < i.length
        · rw [if_pos hlt] at h
          rw [if_pos (by simp only [List.length_append]; omega)]
          cases hpi : p i1 with
          | Error => simp only [hpi] at h; cases h
          | Incomplete => simp only [hpi] at h; cases h
          | Parsed i2 w =>
            simp only [hpi] at h
            simp only [hp.ext_parsed i1 e i2 w hpi]
            by_cases hle : i2.length ≤ i1.length
            · rw [if_pos hle] at h
              rw [if_pos (by simp only [List.length_append]; omega)]
              cases hm : sepLoopGo sep p f1 i2 with
              | Parsed r2 vs => simp only [hm] at h; cases h
              | Incomplete => simp only [hm] at h; cases h
              | Error =>
                have hi2e : (i2 ++ e).length < f2 := by
                  simp only [List.length_append] at h2 ⊢
                  omega
                simp only [ih f2 i2 e (by omega) hi2e hm]
            · rw [if_neg hle] at h
              rw [if_neg (by simp only [List.length_append]; omega)]
        · rw [if_neg hlt] at h
          rw [if_neg (by simp only [List.length_append]; omega)]

theorem good_separated_list1C {α β : Type} {sep : Parser α} {p : Parser β}
    (hsep : GoodParser sep) (hp : GoodParser p) :
    GoodParser (separated_list1C sep p) := by
  constructor
  · intro i rem v h
    unfold separated_list1C at h
    cases hpi : p i with
    | Parsed r w =>
      simp only [hpi] at h
      cases hm : sepLoopGo sep p (r.length + 1) r with
      | Parsed r2 vs =>
        simp only [hm] at h
        cases h
        obtain ⟨p1, hp1⟩ := hp.suffix i r w hpi
        obtain ⟨p2, hp2⟩ := sepLoopGo_suffix hsep hp _ r _ vs hm
        exact ⟨p1 ++ p2, by rw [hp1, hp2, List.append_assoc]⟩
      | Incomplete => simp only [hm] at h; cases h
      | Error => simp only [hm] at h; cases h
    | Incomplete => simp only [hpi] at h; cases h
    | Error => simp only [hpi] at h; cases h
  · intro i e rem v h
    unfold separated_list1C at h ⊢
    cases hpi : p i with
    | Parsed r w =>
      simp only [hpi] at h
      simp only [hp.ext_parsed i e r w hpi]
      cases hm : sepLoopGo sep p (r.length + 1) r with
      | Parsed r2 vs =>
        simp only [hm] at h
        simp only [sepLoopGo_ext_parsed hsep hp (r.length + 1) ((r ++ e).length + 1)
          r e r2 vs (by omega) (by omega) hm]
        cases h
        rfl
      | Incomplete => simp only [hm] at h; cases h
      | Error => simp only [hm] at h; cases h
    | Incomplete => simp only [hpi] at h; cases h
    | Error => simp only [hpi] at h; cases h
  · intro i e h
    unfold separated_list1C at h ⊢
    cases hpi : p i with
    | Parsed r w =>
      simp only [hpi] at h
      simp only [hp.ext_parsed i e r w hpi]
      cases hm : sepLoopGo sep p (r.length + 1) r with
      | Parsed r2 vs => simp only [hm] at h; cases h
      | Incomplete => simp only [hm] at h; cases h
      | Error =>
        simp only [sepLoopGo_ext_error hsep hp (r.length + 1) ((r ++ e).length + 1)
          r e (by omega) (by omega) hm]
    | Incomplete => simp only [hpi] at h; cases h
    | Error => simp only [hp.ext_error i e hpi]

/-! ## The laws, instantiated at each source parser -/

theorem good_Atom : GoodParser Atom :=
  good_mapResC (good_takeWhile1C is_atext) from_utf8

theorem good_number : GoodParser number :=
  good_mapResC (good_mapResC (good_takeWhile1C is_digit) from_utf8) parse_u32

theorem good_quoted_pairSMTP : GoodParser quoted_pairSMTP :=
  good_recognizeC
    (good_tupleC (good_tagC [92]) (good_takeWhileMN 1 1 le_rfl is_value))

theorem good_QcontentSMTP : GoodParser QcontentSMTP :=
  good_recognizeC
    (good_altC (good_takeWhileMN 1 1 le_rfl is_qtextSMTP) good_quoted_pairSMTP)

theorem good_Quoted_string : GoodParser Quoted_string :=
  good_mapC
    (good_delimitedC (good_tagC [34])
      (good_mapResC (good_recognizeC (good_many0C good_QcontentSMTP)) from_utf8)
      (good_tagC [34]))
    unescape_quoted

theorem good_String : GoodParser String :=
  good_altC (good_mapC good_Atom AtomOrQuoted.Atom)
    (good_mapC good_Quoted_string AtomOrQuoted.Quoted)

theorem good_Ldh_str : GoodParser Ldh_str :=
  good_recognizeC
    (good_many0C
      (good_altC (good_takeWhileMN 1 1 le_rfl is_alphabetic)
        (good_altC (good_takeWhileMN 1 1 le_rfl is_digit)
          (good_recognizeC
            (good_tupleC (good_tagC [45])
              (good_takeWhileMN 1 1 le_rfl is_Let_dig))))))

theorem good_sub_domain : GoodParser sub_domain :=
  good_recognizeC
    (good_tupleC (good_takeWhileMN 1 1 le_rfl is_Let_dig) (good_optC good_Ldh_str))

theorem good_Domain : GoodParser Domain :=
  good_mapResC
    (good_recognizeC (good_separated_list1C (good_tagC [46]) good_sub_domain))
    from_utf8

theorem good_base64 : GoodParser base64 :=
  good_mapResC
    (good_recognizeC
      (good_tupleC (good_takeWhileC is_base64_char)
        (good_optC (good_altC (good_tagC [61, 61]) (good_tagC [61])))))
    from_utf8

theorem from_utf8_eq_some {l v : List Nat} (h : from_utf8 l = some v) : v = l := by
  unfold from_utf8 at h
  by_cases hv : utf8Valid l
  · rw [if_pos hv] at h
    cases h
    rfl
  · rw [if_neg hv] at h; cases h

/-- Any parser of the form `map_res(recognize(p), from_utf8)` returns exactly
the consumed slice: input = value ++ remainder. -/
theorem mapRes_utf8_recognize_split {α : Type} {p : Parser α} (hp : GoodParser p)
    {i rem v : List Nat}
    (h : mapResC (recognizeC p) from_utf8 i = PResult.Parsed rem v) :
    i = v ++ rem := by
  unfold mapResC at h
  cases hr : recognizeC p i with
  | Parsed r u =>
    simp only [hr] at h
    cases hf : from_utf8 u with
    | some w =>
      simp only [hf] at h
      cases h
      rw [from_utf8_eq_some hf]
      exact recognizeC_split hp hr
    | none => simp only [hf] at h; cases h
  | Incomplete => simp only [hr] at h; cases h
  | Error => simp only [hr] at h; cases h

theorem Atom_split {i rem v : List Nat}
    (h : Atom i = PResult.Parsed rem v) : i = v ++ rem := by
  unfold Atom mapResC at h
  cases hr : takeWhile1C is_atext i with
  | Parsed r u =>
    simp only [hr] at h
    cases hf : from_utf8 u with
    | some w =>
      simp only [hf] at h
      cases h
      rw [from_utf8_eq_some hf]
      exact (takeWhile1C_split hr).1
    | none => simp only [hf] at h; cases h
  | Incomplete => simp only [hr] at h; cases h
  | Error => simp only [hr] at h; cases h

theorem sub_domain_split {i rem v : List Nat}
    (h : sub_domain i = PResult.Parsed rem v) : i = v ++ rem :=
  recognizeC_split
    (good_tupleC (good_takeWhileMN 1 1 le_rfl is_Let_dig) (good_optC good_Ldh_str)) h

theorem Domain_split {i rem v : List Nat}
    (h : Domain i = PResult.Parsed rem v) : i = v ++ rem :=
  mapRes_utf8_recognize_split (good_separated_list1C (good_tagC [46]) good_sub_domain) h

theorem base64_split {i rem v : List Nat}
    (h : base64 i = PResult.Parsed rem v) : i = v ++ rem :=
  mapRes_utf8_recognize_split
    (good_tupleC (good_takeWhileC is_base64_char)
      (good_optC (good_altC (good_tagC [61, 61]) (good_tagC [61])))) h

/-- C9: for every primitive parser, a successful parse leaves a remainder
that is a suffix of the input, and the four parsers whose value is a slice of
the input satisfy input = value ++ remainder. -/
theorem parsed_remainder_is_suffix :
    (∀ i rem v, Atom i = PResult.Parsed rem v → i = v ++ rem) ∧
    (∀ i rem v, sub_domain i = PResult.Parsed rem v → i = v ++ rem) ∧
    (∀ i rem v, Domain i = PResult.Parsed rem v → i = v ++ rem) ∧
    (∀ i rem v, base64 i = PResult.Parsed rem v → i = v ++ rem) ∧
    (∀ i rem v, Quoted_string i = PResult.Parsed rem v → ∃ pre, i = pre ++ rem) ∧
    (∀ i rem v, String i = PResult.Parsed rem v → ∃ pre, i = pre ++ rem) ∧
    (∀ i rem v, number i = PResult.Parsed rem v → ∃ pre, i = pre ++ rem) :=
  ⟨fun _ _ _ h => Atom_split h,
   fun _ _ _ h => sub_domain_split h,
   fun _ _ _ h => Domain_split h,
   fun _ _ _ h => base64_split h,
   fun i rem v h => good_Quoted_string.suffix i rem v h,
   fun i rem v h => good_String.suffix i rem v h,
   fun i rem v h => good_number.suffix i rem v h⟩

/-- Witness for C9 at concrete inputs: Atom on the bytes of an at sign
delimited token (97 is letter a, 64 is the at sign). -/
theorem parsed_remainder_is_suffix_witness :
    Atom [97, 64] = PResult.Parsed [64] [97] ∧ [97, 64] = [97] ++ [64] :=
  ⟨by decide, parsed_remainder_is_suffix.1 [97, 64] [64] [97] (by decide)⟩

/-- C5: every primitive parser's successful parse is stable under appending
newly received bytes: the same value is produced and the new bytes land at
the end of the remainder. -/
theorem streaming_extension_stable :
    (∀ i e rem v, Atom i = PResult.Parsed rem v →
      Atom (i ++ e) = PResult.Parsed (rem ++ e) v) ∧
    (∀ i e rem v, sub_domain i = PResult.Parsed rem v →
      sub_domain (i ++ e) = PResult.Parsed (rem ++ e) v) ∧
    (∀ i e rem v, Domain i = PResult.Parsed rem v →
      Domain (i ++ e) = PResult.Parsed (rem ++ e) v) ∧
    (∀ i e rem v, base64 i = PResult.Parsed rem v →
      base64 (i ++ e) = PResult.Parsed (rem ++ e) v) ∧
    (∀ i e rem v, Quoted_string i = PResult.Parsed rem v →
      Quoted_string (i ++ e) = PResult.Parsed (rem ++ e) v) ∧
    (∀ i e rem v, String i = PResult.Parsed rem v →
      String (i ++ e) = PResult.Parsed (rem ++ e) v) ∧
    (∀ i e rem v, number i = PResult.Parsed rem v →
      number (i ++ e) = PResult.Parsed (rem ++ e) v) :=
  ⟨good_Atom.ext_parsed, good_sub_domain.ext_parsed, good_Domain.ext_parsed,
   good_base64.ext_parsed, good_Quoted_string.ext_parsed, good_String.ext_parsed,
   good_number.ext_parsed⟩

/-- Witness for C5 at a concrete input: extending the buffer behind a parsed
atom does not change the parse (97 is letter a, 64 at sign, 98 letter b). -/
theorem streaming_extension_stable_witness :
    Atom [97, 64] = PResult.Parsed [64] [97] ∧
    Atom [97, 64, 98] = PResult.Parsed [64, 98] [97] :=
  ⟨by decide, streaming_extension_stable.1 [97, 64] [98] [64] [97] (by decide)⟩

/-! ## Totality of base64 -/

theorem utf8Valid_of_ascii : ∀ {l : List Nat}, (∀ b ∈ l, b ≤ 127) →
    utf8Valid l = true := by
  intro l
  induction l with
  | nil => intro _; rfl
  | cons b rest ih =>
    intro h
    have hb : b ≤ 127 := h b (List.mem_cons_self b rest)
    have hstep : utf8Step (0, 0, 0) b = some (0, 0, 0) := by
      simp only [utf8Step]
      rw [if_pos hb]
    unfold utf8Valid at ih ⊢
    simp only [utf8Run, hstep]
    exact ih (fun c hc => h c (List.mem_cons_of_mem b hc))

theorem from_utf8_ascii {l : List Nat} (h : ∀ b ∈ l, b ≤ 127) :
    from_utf8 l = some l := by
  unfold from_utf8
  rw [if_pos (utf8Valid_of_ascii h)]

theorem takeWhileC_ne_error {p : Nat → Bool} (i : List Nat) :
    takeWhileC p i ≠ PResult.Error := by
  unfold takeWhileC
  cases hs : splitPos (fun b => ! p b) i <;> simp

theorem optC_ne_error {α : Type} (p : Parser α) (i : List Nat) :
    optC p i ≠ PResult.Error := by
  unfold optC
  cases hpi : p i <;> simp

theorem is_base64_char_ascii {b : Nat} (h : is_base64_char b = true) : b ≤ 127 := by
  simp [is_base64_char, is_alphabetic, is_digit] at h
  omega

theorem tagC_head_mismatch {t0 x : Nat} {ts rest : List Nat} (h : t0 ≠ x) :
    tagC (t0 :: ts) (x :: rest) = PResult.Error := by
  unfold tagC
  by_cases hl : (t0 :: ts).length ≤ (x :: rest).length
  · rw [if_pos hl, if_neg ?hne]
    case hne =>
      intro hc
      rw [List.length_cons, List.take_succ_cons] at hc
      simp only [List.cons.injEq] at hc
      exact h hc.1.symm
  · rw [if_neg hl, if_neg ?hne2]
    case hne2 =>
      intro hc
      rw [List.length_cons, List.take_succ_cons] at hc
      simp only [List.cons.injEq] at hc
      exact h hc.1

/-- C10: base64 never reports Invalid: every run is Parsed or Incomplete, and
a buffer whose first byte can start neither the base64 run nor the padding
yields an empty token with the whole buffer as remainder. -/
theorem base64_never_invalid :
    (∀ i, base64 i = PResult.Incomplete ∨
      ∃ rem v, base64 i = PResult.Parsed rem v) ∧
    (∀ x rest, is_base64_char x = false → x ≠ 61 →
      base64 (x :: rest) = PResult.Parsed (x :: rest) []) := by
  constructor
  · intro i
    unfold base64 mapResC
    cases htw : takeWhileC is_base64_char i with
    | Incomplete =>
      left
      have hrec : recognizeC (tupleC (takeWhileC is_base64_char)
          (optC (altC (tagC [61, 61]) (tagC [61])))) i = PResult.Incomplete := by
        unfold recognizeC tupleC
        simp only [htw]
      simp only [hrec]
    | Error => exact absurd htw (takeWhileC_ne_error i)
    | Parsed r1 v1 =>
      obtain ⟨hsplit, hall⟩ := takeWhileC_split htw
      cases hop : optC (altC (tagC [61, 61]) (tagC [61])) r1 with
      | Incomplete =>
        left
        have hrec : recognizeC (tupleC (takeWhileC is_base64_char)
            (optC (altC (tagC [61, 61]) (tagC [61])))) i = PResult.Incomplete := by
          unfold recognizeC tupleC
          simp only [htw, hop]
        simp only [hrec]
      | Error => exact absurd hop (optC_ne_error _ r1)
      | Parsed r2 v2 =>
        right
        have hpad : ∃ t, r1 = t ++ r2 ∧ ∀ b ∈ t, b = 61 := by
          unfold optC at hop
          cases halt : altC (tagC [61, 61]) (tagC [61]) r1 with
          | Parsed ra va =>
            simp only [halt] at hop
            cases hop
            unfold altC at halt
            cases h1 : tagC [61, 61] r1 with
            | Parsed rb vb =>
              simp only [h1] at halt
              cases halt
              obtain ⟨hv, hr⟩ := tagC_split h1
              exact ⟨[61, 61], hr, by intro b hb; simp at hb; omega⟩
            | Incomplete => simp only [h1] at halt; cases halt
            | Error =>
              simp only [h1] at halt
              obtain ⟨hv, hr⟩ := tagC_split halt
              exact ⟨[61], hr, by intro b hb; simp at hb; omega⟩
          | Incomplete => simp only [halt] at hop; cases hop
          | Error =>
            simp only [halt] at hop
            cases hop
            exact ⟨[], rfl, by intro b hb; simp at hb⟩
        obtain ⟨t, hr1, ht⟩ := hpad
        have hituple : tupleC (takeWhileC is_base64_char)
            (optC (altC (tagC [61, 61]) (tagC [61]))) i =
            PResult.Parsed r2 (v1, v2) := by
          unfold tupleC
          simp only [htw, hop]
        have hconsumed : i.take (i.length - r2.length) = v1 ++ t := by
          have hi : i = (v1 ++ t) ++ r2 := by
            rw [hsplit, hr1, List.append_assoc]
          have hlen : i.length - r2.length = (v1 ++ t).length := by
            rw [hi, List.length_append]
            omega
          rw [hlen, hi, List.take_left]
        have hrec : recognizeC (tupleC (takeWhileC is_base64_char)
            (optC (altC (tagC [61, 61]) (tagC [61])))) i =
            PResult.Parsed r2 (v1 ++ t) := by
          unfold recognizeC
          simp only [hituple, hconsumed]
        refine ⟨r2, v1 ++ t, ?_⟩
        simp only [hrec]
        rw [from_utf8_ascii ?ascii]
        case ascii =>
          intro b hb
          rcases List.mem_append.mp hb with hbv | hbt
          · exact is_base64_char_ascii (hall b hbv)
          · rw [ht b hbt]; omega
  · intro x rest hx1 hx2
    have htw : takeWhileC is_base64_char (x :: rest) =
        PResult.Parsed (x :: rest) [] := by
      unfold takeWhileC
      have hs : splitPos (fun b => ! is_base64_char b) (x :: rest) = some 0 := by
        simp [splitPos, hx1]
      rw [hs]
      simp
    have h1 : tagC [61, 61] (x :: rest) = PResult.Error :=
      tagC_head_mismatch (Ne.symm hx2)
    have h2 : tagC [61] (x :: rest) = PResult.Error :=
      tagC_head_mismatch (Ne.symm hx2)
    unfold base64 mapResC recognizeC tupleC optC altC
    simp only [htw, h1, h2, Nat.sub_self, List.take_zero]
    rfl

/-- Witness for C10: on a buffer starting with a dot (46), base64 succeeds
with the empty token. -/
theorem base64_never_invalid_witness :
    is_base64_char 46 = false ∧ (46 : Nat) ≠ 61 ∧
    base64 [46] = PResult.Parsed [46] [] :=
  ⟨by decide, by decide, base64_never_invalid.2 46 [] (by decide) (by decide)⟩

/-! ## Concrete behavior of the parsers on the buffers named by the spec -/

/-- C3 (counterexample): on the exact buffer of "a.b-c.d9" (bytes 97 46 98 45
99 46 100 57) the Domain parser returns Incomplete, not Parsed: the final
label ends at the end of the buffer, and in the streaming model more
letter-digit-hyphen bytes could still arrive, so the result is not
`Parsed "a.b-c.d9" []` as the claim states. -/
theorem Domain_abc_d9_incomplete :
    Domain [97, 46, 98, 45, 99, 46, 100, 57] = PResult.Incomplete := by decide

/-- C3 (amended): Domain on "a.b-c.d9" followed by a byte that can extend
neither a label nor start a separator (62, a greater-than sign) parses the
full domain "a.b-c.d9" with the delimiter as remainder; on the bare buffer it
returns Incomplete. -/
theorem Domain_abc_d9_delimited :
    Domain [97, 46, 98, 45, 99, 46, 100, 57, 62] =
      PResult.Parsed [62] [97, 46, 98, 45, 99, 46, 100, 57] ∧
    Domain [97, 46, 98, 45, 99, 46, 100, 57] = PResult.Incomplete := by decide

/-- C4: base64 on "QQ==" (81 81 61 61) parses the whole token, both padding
bytes included; on "QQ" (81 81) it is Incomplete, not a short Parsed, since
more base64 or padding bytes could follow. -/
theorem base64_QQ_padding :
    base64 [81, 81, 61, 61] = PResult.Parsed [] [81, 81, 61, 61] ∧
    base64 [81, 81] = PResult.Incomplete := by decide

/-- C6: Domain on "-a.b" (45 97 46 98) is Invalid since a label cannot start
with a hyphen, and Domain on "a-.b" (97 45 46 98) parses only "a", leaving
the trailing hyphen (and everything after it) unconsumed. -/
theorem Domain_hyphen_rules :
    Domain [45, 97, 46, 98] = PResult.Error ∧
    Domain [97, 45, 46, 98] = PResult.Parsed [45, 46, 98] [97] := by decide

/-- C7: a quoted pair accepts only a backslash (92) or a double quote (34)
after the escaping backslash: for any other byte `x` the unit parser rejects
`92 x`, and the five-byte buffer DQUOTE backslash letter-a DQUOTE
(34 92 97 34) is Invalid as a quoted string. -/
theorem quoted_pair_restricted :
    (∀ x rest, x ≠ 92 → x ≠ 34 →
      QcontentSMTP (92 :: x :: rest) = PResult.Error) ∧
    Quoted_string [34, 92, 97, 34] = PResult.Error := by
  constructor
  · intro x rest hx1 hx2
    have hval : is_value x = false := by
      simp [is_value, hx1, hx2]
    have hq : takeWhileMN 1 1 is_qtextSMTP (92 :: x :: rest) = PResult.Error := by
      have hs : splitPos (fun b => ! is_qtextSMTP b) (92 :: x :: rest) = some 0 := rfl
      rw [takeWhileMN_eq_of_some hs, if_neg (by omega)]
    have htag : tagC [92] (92 :: x :: rest) = PResult.Parsed (x :: rest) [92] := by
      unfold tagC
      simp
    have htv : takeWhileMN 1 1 is_value (x :: rest) = PResult.Error := by
      have hs : splitPos (fun b => ! is_value b) (x :: rest) = some 0 := by
        simp [splitPos, hval]
      rw [takeWhileMN_eq_of_some hs, if_neg (by omega)]
    have hqp : quoted_pairSMTP (92 :: x :: rest) = PResult.Error := by
      unfold quoted_pairSMTP recognizeC tupleC
      simp only [htag, htv]
    unfold QcontentSMTP recognizeC altC
    simp only [hq, hqp]
  · decide

/-- C8 (counterexample): number on the exact buffer "007" (48 48 55) is
Incomplete, not `Parsed 7`: the buffer is all digits, so in the streaming
model more digits could still arrive. -/
theorem number_007_incomplete :
    number [48, 48, 55] = PResult.Incomplete := by decide

theorem parse_u32_lt {s : List Nat} {v : Nat} (h : parse_u32 s = some v) :
    v < 4294967296 := by
  unfold parse_u32 at h
  by_cases h1 : s.isEmpty
  · rw [if_pos h1] at h; cases h
  · rw [if_neg h1] at h
    by_cases h2 : s.all is_digit
    · rw [if_pos h2] at h
      by_cases h3 : digitsToNat s < 4294967296
      · rw [if_pos h3] at h
        cases h
        exact h3
      · rw [if_neg h3] at h; cases h
    · rw [if_neg h2] at h; cases h

/-- C8 (amended): number on a digit run delimited by a non-digit parses the
run as a u32 with leading zeros accepted ("007 " gives 7, 32 is the space);
the digit run "4294967296" (one past the u32 maximum) delimited the same way
is Invalid rather than a wrapped value; and every successfully parsed number
is below 2 to the 32.  On an all-digit buffer such as "007" alone the result
is Incomplete (see the counterexample theorem). -/
theorem number_u32_range :
    number [48, 48, 55, 32] = PResult.Parsed [32] 7 ∧
    number [52, 50, 57, 52, 57, 54, 55, 50, 57, 54, 32] = PResult.Error ∧
    (∀ i rem v, number i = PResult.Parsed rem v → v < 4294967296) := by
  refine ⟨by decide, by decide, ?_⟩
  intro i rem v h
  unfold number mapResC at h
  cases h1 : takeWhile1C is_digit i with
  | Parsed r u =>
    simp only [h1] at h
    cases h2 : from_utf8 u with
    | some w =>
      simp only [h2] at h
      cases h3 : parse_u32 w with
      | some z =>
        simp only [h3] at h
        cases h
        exact parse_u32_lt h3
      | none => simp only [h3] at h; cases h
    | none => simp only [h2] at h; cases h
  | Incomplete => simp only [h1] at h; cases h
  | Error => simp only [h1] at h; cases h

/-- Witness for C8's amended range statement at a concrete input ("1 "). -/
theorem number_u32_range_witness :
    number [49, 32] = PResult.Parsed [32] 1 ∧ 1 < 4294967296 :=
  ⟨by decide, number_u32_range.2.2 [49, 32] [32] 1 (by decide)⟩

/-- Witness for C7's general statement at the concrete byte 97 (letter a). -/
theorem quoted_pair_restricted_witness :
    (97 : Nat) ≠ 92 ∧ (97 : Nat) ≠ 34 ∧ QcontentSMTP [92, 97] = PResult.Error :=
  ⟨by decide, by decide, quoted_pair_restricted.1 97 [] (by decide) (by decide)⟩

/-! ## The escape and unescape helpers -/

theorem isPrefixOf_head_ne {a x : Nat} (h : a ≠ x) (ps xs : List Nat) :
    (a :: ps).isPrefixOf (x :: xs) = false := by
  rw [List.isPrefixOf_cons₂]
  have hax : (a == x) = false := by simp [h]
  rw [hax, Bool.false_and]

theorem replaceGo_congr (pat rep : List Nat) :
    ∀ (f1 f2 : Nat) (l : List Nat), l.length ≤ f1 → l.length ≤ f2 →
      replaceGo pat rep f1 l = replaceGo pat rep f2 l := by
  intro f1
  induction f1 with
  | zero =>
    intro f2 l h1 h2
    have hl : l = [] := by
      cases l with
      | nil => rfl
      | cons b rest => simp at h1
    subst hl
    cases f2 with
    | zero => rfl
    | succ f2 => rfl
  | succ f1 ih =>
    intro f2 l h1 h2
    cases l with
    | nil =>
      cases f2 with
      | zero => rfl
      | succ f2 => rfl
    | cons b rest =>
      cases f2 with
      | zero => simp at h2
      | succ f2 =>
        simp only [replaceGo]
        by_cases hc : (pat.isPrefixOf (b :: rest) && ! pat.isEmpty) = true
        · rw [if_pos hc, if_pos hc]
          congr 1
          have hplen : 1 ≤ pat.length := by
            cases pat with
            | nil => simp at hc
            | cons p ps => simp
          apply ih
          · simp only [List.length_drop, List.length_cons] at h1 ⊢
            omega
          · simp only [List.length_drop, List.length_cons] at h2 ⊢
            omega
        · rw [if_neg hc, if_neg hc]
          congr 1
          apply ih
          · simp only [List.length_cons] at h1; omega
          · simp only [List.length_cons] at h2; omega

theorem replaceList_cons_match {pat rep l : List Nat}
    (hp : pat.isPrefixOf l = true) (hne : pat ≠ []) :
    replaceList l pat rep = rep ++ replaceList (l.drop pat.length) pat rep := by
  cases l with
  | nil =>
    cases pat with
    | nil => exact absurd rfl hne
    | cons p ps => simp [List.isPrefixOf] at hp
  | cons b rest =>
    have hplen : 1 ≤ pat.length := by
      cases pat with
      | nil => exact absurd rfl hne
      | cons p ps => simp
    have hcond : (pat.isPrefixOf (b :: rest) && ! pat.isEmpty) = true := by
      rw [hp, Bool.true_and]
      simp [List.isEmpty_iff, hne]
    unfold replaceList
    conv =>
      lhs
      simp only [List.length_cons, replaceGo]
    rw [if_pos hcond]
    congr 1
    apply replaceGo_congr
    · simp only [List.length_drop, List.length_cons]
      omega
    · exact le_rfl

theorem replaceList_cons_nomatch {pat rep : List Nat} {b : Nat} {rest : List Nat}
    (hp : pat.isPrefixOf (b :: rest) = false) :
    replaceList (b :: rest) pat rep = b :: replaceList rest pat rep := by
  unfold replaceList
  conv =>
    lhs
    simp only [List.length_cons, replaceGo]
  rw [if_neg (by simp [hp])]

theorem nil_isPrefixOf (l : List Nat) : ([] : List Nat).isPrefixOf l = true := by
  cases l <;> rfl

theorem isPrefixOf_cons_self {a : Nat} {ps xs : List Nat}
    (h : ps.isPrefixOf xs = true) : (a :: ps).isPrefixOf (a :: xs) = true := by
  rw [List.isPrefixOf_cons₂, h]
  simp

theorem replace_absent {pat rep : List Nat} :
    ∀ {l : List Nat}, containsSub l pat = false → replaceList l pat rep = l := by
  intro l
  induction l with
  | nil => intro _; rfl
  | cons b rest ih =>
    intro h
    have hp : pat.isPrefixOf (b :: rest) = false := by
      by_cases hp0 : pat.isPrefixOf (b :: rest) = true
      · unfold containsSub at h
        rw [if_pos hp0] at h
        cases h
      · exact Bool.eq_false_iff.mpr hp0
    have hrest : containsSub rest pat = false := by
      unfold containsSub at h
      rw [if_neg (by simp [hp])] at h
      exact h
    rw [replaceList_cons_nomatch hp, ih hrest]

theorem escape_quoted_eq (s : List Nat) :
    escape_quoted s =
      replaceList (replaceList s [92] [92, 92]) [34] [92, 34] := by
  unfold escape_quoted
  simp only []
  by_cases h1 : containsSub s [92]
  · rw [if_pos h1]
    by_cases h2 : containsSub (replaceList s [92] [92, 92]) [34]
    · rw [if_pos h2]
    · rw [if_neg h2, replace_absent (Bool.eq_false_iff.mpr h2)]
  · rw [if_neg h1, replace_absent (Bool.eq_false_iff.mpr h1)]
    by_cases h2 : containsSub s [34]
    · rw [if_pos h2]
    · rw [if_neg h2, replace_absent (Bool.eq_false_iff.mpr h2)]

theorem unescape_quoted_eq (w : List Nat) :
    unescape_quoted w =
      replaceList (replaceList w [92, 92] [92]) [92, 34] [34] := by
  unfold unescape_quoted
  simp only []
  by_cases h1 : containsSub w [92, 92]
  · rw [if_pos h1]
    by_cases h2 : containsSub (replaceList w [92, 92] [92]) [92, 34]
    · rw [if_pos h2]
    · rw [if_neg h2, replace_absent (Bool.eq_false_iff.mpr h2)]
  · rw [if_neg h1, replace_absent (Bool.eq_false_iff.mpr h1)]
    by_cases h2 : containsSub w [92, 34]
    · rw [if_pos h2]
    · rw [if_neg h2, replace_absent (Bool.eq_false_iff.mpr h2)]

theorem escape_flatMap (s : List Nat) :
    escape_quoted s = s.flatMap encByte := by
  rw [escape_quoted_eq]
  induction s with
  | nil => rfl
  | cons b rest ih =>
    by_cases hb92 : b = 92
    · subst hb92
      rw [@replaceList_cons_match [92] [92, 92] (92 :: rest)
        (isPrefixOf_cons_self (nil_isPrefixOf rest)) (by simp)]
      simp only [List.length_cons, List.length_nil, List.drop_succ_cons,
        List.drop_zero, List.cons_append, List.nil_append]
      rw [replaceList_cons_nomatch (isPrefixOf_head_ne (by omega) _ _),
        replaceList_cons_nomatch (isPrefixOf_head_ne (by omega) _ _), ih,
        List.flatMap_cons]
      rfl
    · by_cases hb34 : b = 34
      · subst hb34
        rw [@replaceList_cons_nomatch [92] [92, 92] 34 rest
          (isPrefixOf_head_ne (by omega) _ _)]
        rw [@replaceList_cons_match [34] [92, 34]
          (34 :: replaceList rest [92] [92, 92])
          (isPrefixOf_cons_self (nil_isPrefixOf _)) (by simp)]
        simp only [List.length_cons, List.length_nil, List.drop_succ_cons,
          List.drop_zero, List.cons_append, List.nil_append]
        rw [ih, List.flatMap_cons]
        rfl
      · rw [@replaceList_cons_nomatch [92] [92, 92] b rest
          (isPrefixOf_head_ne (Ne.symm hb92) _ _)]
        rw [@replaceList_cons_nomatch [34] [92, 34] b
          (replaceList rest [92] [92, 92])
          (isPrefixOf_head_ne (Ne.symm hb34) _ _)]
        rw [ih, List.flatMap_cons]
        unfold encByte
        rw [if_neg hb92, if_neg hb34]
        rfl

theorem wellEscaped_flatMap : ∀ s : List Nat,
    wellEscaped (s.flatMap encByte) = true := by
  intro s
  induction s with
  | nil => rfl
  | cons b rest ih =>
    rw [List.flatMap_cons]
    by_cases hb92 : b = 92
    · subst hb92
      show wellEscaped (92 :: 92 :: rest.flatMap encByte) = true
      simp only [wellEscaped]
      simp [ih]
    · by_cases hb34 : b = 34
      · subst hb34
        show wellEscaped (92 :: 34 :: rest.flatMap encByte) = true
        simp only [wellEscaped]
        simp [ih]
      · have henc : encByte b = [b] := by
          unfold encByte
          rw [if_neg hb92, if_neg hb34]
        rw [henc, List.cons_append, List.nil_append]
        cases hX : rest.flatMap encByte with
        | nil =>
          simp only [wellEscaped]
          simp [hb92, hb34]
        | cons c X =>
          simp only [wellEscaped]
          rw [if_neg hb92]
          rw [← hX]
          simp [hb34, ih]

theorem flatMap_encByte_ne_nil {t : List Nat} {c : Nat} {r : List Nat} :
    t.flatMap encByte = c :: r → t ≠ [] := by
  intro h hnil
  subst hnil
  cases h

theorem unescape_pass1_flatMap : ∀ s : List Nat,
    replaceList (s.flatMap encByte) [92, 92] [92] = s.flatMap midByte := by
  intro s
  induction s with
  | nil => rfl
  | cons b rest ih =>
    rw [List.flatMap_cons, List.flatMap_cons]
    by_cases hb92 : b = 92
    · subst hb92
      show replaceList (92 :: 92 :: rest.flatMap encByte) [92, 92] [92] = _
      rw [@replaceList_cons_match [92, 92] [92] (92 :: 92 :: rest.flatMap encByte)
        (isPrefixOf_cons_self (isPrefixOf_cons_self (nil_isPrefixOf _))) (by simp)]
      simp only [List.length_cons, List.length_nil, List.drop_succ_cons,
        List.drop_zero, List.cons_append, List.nil_append]
      rw [ih]
      rfl
    · by_cases hb34 : b = 34
      · subst hb34
        show replaceList (92 :: 34 :: rest.flatMap encByte) [92, 92] [92] = _
        rw [@replaceList_cons_nomatch [92, 92] [92] 92 (34 :: rest.flatMap encByte) ?hpf]
        case hpf =>
          rw [List.isPrefixOf_cons₂]
          rw [isPrefixOf_head_ne (by omega) _ _]
          simp
        rw [@replaceList_cons_nomatch [92, 92] [92] 34 (rest.flatMap encByte)
          (isPrefixOf_head_ne (by omega) _ _)]
        rw [ih]
        rfl
      · have henc : encByte b = [b] := by
          unfold encByte
          rw [if_neg hb92, if_neg hb34]
        have hmid : midByte b = [b] := by
          unfold midByte
          rw [if_neg hb34]
        rw [henc, hmid, List.cons_append, List.nil_append, List.cons_append,
          List.nil_append]
        rw [@replaceList_cons_nomatch [92, 92] [92] b (rest.flatMap encByte)
          (isPrefixOf_head_ne (Ne.symm hb92) _ _)]
        rw [ih]

theorem flatMap_midByte_head_ne {t : List Nat} {c : Nat} {r : List Nat}
    (h : t.flatMap midByte = c :: r) : c ≠ 34 := by
  cases t with
  | nil => cases h
  | cons x t2 =>
    rw [List.flatMap_cons] at h
    by_cases hx : x = 34
    · subst hx
      show c ≠ 34
      have : (92 : Nat) :: 34 :: t2.flatMap midByte = c :: r := by
        simpa [midByte] using h
      cases this
      omega
    · have hmid : midByte x = [x] := by
        unfold midByte
        rw [if_neg hx]
      rw [hmid, List.cons_append, List.nil_append] at h
      cases h
      exact hx

theorem unescape_pass2_flatMap : ∀ s : List Nat,
    replaceList (s.flatMap midByte) [92, 34] [34] = s := by
  intro s
  induction s with
  | nil => rfl
  | cons b rest ih =>
    rw [List.flatMap_cons]
    by_cases hb34 : b = 34
    · subst hb34
      show replaceList (92 :: 34 :: rest.flatMap midByte) [92, 34] [34] = _
      rw [@replaceList_cons_match [92, 34] [34] (92 :: 34 :: rest.flatMap midByte)
        (isPrefixOf_cons_self (isPrefixOf_cons_self (nil_isPrefixOf _))) (by simp)]
      simp only [List.length_cons, List.length_nil, List.drop_succ_cons,
        List.drop_zero, List.cons_append, List.nil_append]
      rw [ih]
    · have hmid : midByte b = [b] := by
        unfold midByte
        rw [if_neg hb34]
      rw [hmid, List.cons_append, List.nil_append]
      have hpf : ([92, 34] : List Nat).isPrefixOf (b :: rest.flatMap midByte) =
          false := by
        by_cases hb92 : b = 92
        · subst hb92
          rw [List.isPrefixOf_cons₂]
          cases hX : rest.flatMap midByte with
          | nil => simp [List.isPrefixOf]
          | cons c X =>
            rw [isPrefixOf_head_ne (Ne.symm (flatMap_midByte_head_ne hX)) _ _]
            simp
        · exact isPrefixOf_head_ne (Ne.symm hb92) _ _
      rw [replaceList_cons_nomatch hpf, ih]

/-- C1: escaping then unescaping is the identity on every string, and the
escaped output contains no unescaped double quote or backslash: every byte 92
or 34 in the output is part of a two-byte 92 92 or 92 34 escape. -/
theorem escape_unescape_roundtrip (s : List Nat) :
    unescape_quoted (escape_quoted s) = s ∧
    wellEscaped (escape_quoted s) = true := by
  constructor
  · rw [escape_flatMap, unescape_quoted_eq, unescape_pass1_flatMap,
      unescape_pass2_flatMap]
  · rw [escape_flatMap]
    exact wellEscaped_flatMap s

theorem isPrefixOf_nil_right (a : Nat) (ps : List Nat) :
    (a :: ps).isPrefixOf [] = false := rfl

theorem is_qtextSMTP_ne {b : Nat} (h : is_qtextSMTP b = true) :
    b ≠ 92 ∧ b ≠ 34 := by
  simp [is_qtextSMTP] at h
  omega

/-- On wire-valid text, the first pass of unescaping never produces a leading
double quote: the head is a backslash (from an escape) or a qtext byte. -/
theorem pass1_head_ne {t : List Nat} (h : wireValid t = true) :
    ∀ {c : Nat} {r : List Nat},
      replaceList t [92, 92] [92] = c :: r → c ≠ 34 := by
  intro c r heq
  cases t with
  | nil => cases heq
  | cons b rest =>
    by_cases hpf : ([92, 92] : List Nat).isPrefixOf (b :: rest) = true
    · rw [replaceList_cons_match hpf (by simp), List.cons_append,
        List.nil_append] at heq
      cases heq
      omega
    · rw [replaceList_cons_nomatch (Bool.eq_false_iff.mpr hpf)] at heq
      cases heq
      cases rest with
      | nil =>
        simp only [wireValid] at h
        exact (is_qtextSMTP_ne h).2
      | cons c2 rest2 =>
        simp only [wireValid] at h
        by_cases hc92 : c = 92
        · omega
        · rw [if_neg hc92, Bool.and_eq_true] at h
          exact (is_qtextSMTP_ne h.1).2

theorem wire_aux : ∀ (n : Nat) (w : List Nat), w.length ≤ n →
    wireValid w = true →
    (replaceList (replaceList w [92, 92] [92]) [92, 34] [34]).flatMap encByte
      = w := by
  intro n
  induction n with
  | zero =>
    intro w hlen hw
    have hnil : w = [] := by
      cases w with
      | nil => rfl
      | cons b r => simp at hlen
    subst hnil
    rfl
  | succ n ih =>
    intro w hlen hw
    cases w with
    | nil => rfl
    | cons b rest =>
      cases rest with
      | nil =>
        simp only [wireValid] at hw
        obtain ⟨hb92, hb34⟩ := is_qtextSMTP_ne hw
        have hpf1 : ([92, 92] : List Nat).isPrefixOf [b] = false := by
          rw [List.isPrefixOf_cons₂, isPrefixOf_nil_right, Bool.and_false]
        have hpf2 : ([92, 34] : List Nat).isPrefixOf [b] = false := by
          rw [List.isPrefixOf_cons₂, isPrefixOf_nil_right, Bool.and_false]
        rw [replaceList_cons_nomatch hpf1,
          show replaceList ([] : List Nat) [92, 92] [92] = [] from rfl,
          replaceList_cons_nomatch hpf2,
          show replaceList ([] : List Nat) [92, 34] [34] = [] from rfl,
          List.flatMap_cons, List.flatMap_nil]
        unfold encByte
        rw [if_neg hb92, if_neg hb34, List.append_nil]
      | cons c rest2 =>
        simp only [wireValid] at hw
        have hlen2 : rest2.length ≤ n := by
          simp only [List.length_cons] at hlen
          omega
        by_cases hb92 : b = 92
        · subst hb92
          rw [if_pos rfl, Bool.and_eq_true] at hw
          obtain ⟨hor, hrest⟩ := hw
          have hc : c = 92 ∨ c = 34 := by
            simpa using hor
          rcases hc with hc | hc
          · subst hc
            rw [@replaceList_cons_match [92, 92] [92] (92 :: 92 :: rest2)
              (isPrefixOf_cons_self (isPrefixOf_cons_self (nil_isPrefixOf _)))
              (by simp)]
            simp only [List.length_cons, List.length_nil, List.drop_succ_cons,
              List.drop_zero, List.cons_append, List.nil_append]
            have hpf : ([92, 34] : List Nat).isPrefixOf
                (92 :: replaceList rest2 [92, 92] [92]) = false := by
              rw [List.isPrefixOf_cons₂]
              cases hX : replaceList rest2 [92, 92] [92] with
              | nil => rw [isPrefixOf_nil_right, Bool.and_false]
              | cons c0 X =>
                rw [isPrefixOf_head_ne (Ne.symm (pass1_head_ne hrest hX)) _ _,
                  Bool.and_false]
            rw [replaceList_cons_nomatch hpf, List.flatMap_cons,
              ih rest2 hlen2 hrest]
            rfl
          · subst hc
            have hpf1 : ([92, 92] : List Nat).isPrefixOf (92 :: 34 :: rest2) =
                false := by
              rw [List.isPrefixOf_cons₂, isPrefixOf_head_ne (by omega) _ _,
                Bool.and_false]
            rw [replaceList_cons_nomatch hpf1,
              @replaceList_cons_nomatch [92, 92] [92] 34 rest2
                (isPrefixOf_head_ne (by omega) _ _)]
            rw [@replaceList_cons_match [92, 34] [34]
              (92 :: 34 :: replaceList rest2 [92, 92] [92])
              (isPrefixOf_cons_self (isPrefixOf_cons_self (nil_isPrefixOf _)))
              (by simp)]
            simp only [List.length_cons, List.length_nil, List.drop_succ_cons,
              List.drop_zero, List.cons_append, List.nil_append]
            rw [List.flatMap_cons, ih rest2 hlen2 hrest]
            rfl
        · rw [if_neg hb92, Bool.and_eq_true] at hw
          obtain ⟨hq, hrest⟩ := hw
          obtain ⟨_, hb34⟩ := is_qtextSMTP_ne hq
          have hlen3 : (c :: rest2).length ≤ n := by
            simp only [List.length_cons] at hlen ⊢
            omega
          rw [@replaceList_cons_nomatch [92, 92] [92] b (c :: rest2)
            (isPrefixOf_head_ne (Ne.symm hb92) _ _)]
          rw [@replaceList_cons_nomatch [92, 34] [34] b
            (replaceList (c :: rest2) [92, 92] [92])
            (isPrefixOf_head_ne (Ne.symm hb92) _ _)]
          rw [List.flatMap_cons, ih (c :: rest2) hlen3 hrest]
          unfold encByte
          rw [if_neg hb92, if_neg hb34, List.cons_append, List.nil_append]

/-- C2: on well-formed escaped wire text (a concatenation of qtextSMTP bytes
and the two-byte escapes 92 92 and 92 34), unescaping then escaping is the
identity. -/
theorem wire_escape_unescape_roundtrip (w : List Nat)
    (h : wireValid w = true) : escape_quoted (unescape_quoted w) = w := by
  rw [unescape_quoted_eq, escape_flatMap]
  exact wire_aux w.length w le_rfl h

/-- Witness for C2 at a concrete wire text: an escaped quote followed by a
letter (92 34 97). -/
theorem wire_escape_unescape_roundtrip_witness :
    wireValid [92, 34, 97] = true ∧
    escape_quoted (unescape_quoted [92, 34, 97]) = [92, 34, 97] :=
  ⟨by decide, wire_escape_unescape_roundtrip [92, 34, 97] (by decide)⟩

end InstantSmtp
